import Mathlib

/-!
Verification development for the vikunja-mcp task-focus engine.

The Python source is shallowly embedded: Python floats are modelled as
rationals (the code only adds, multiplies by decimal literals, compares and
clamps, so the outcomes proved here agree with IEEE evaluation on the inputs
considered), Python lists as `List`, Python dicts built by insertion as
insertion-ordered association lists, and Python exceptions as `Option`/`Except`
(`none`/`.error` = the call raised).  Pydantic field validators
(`Field(ge=..., le=...)`) raise `ValidationError` on out-of-range values at
construction time; constructions of validated models are therefore embedded as
`Option`-returning smart constructors.
-/

set_option maxHeartbeats 1000000
set_option maxRecDepth 8000

namespace Vmcp

/-- `models.EnergyLevel`: user energy levels for task matching. -/
inductive EnergyLevel where
  | low | medium | high | social
deriving DecidableEq

/-- `models.WorkMode`: work mode preferences. -/
inductive WorkMode where
  | deep | quick | admin
deriving DecidableEq

/-- `models.RelatedTaskInfo`: minimal info about a related task. -/
structure RelatedTaskInfo where
  id : Int
  title : String := ""
  done : Bool := false
  project_id : Int := 0
deriving DecidableEq

/-- `models.RawTask` (the fields the verified algorithms read).
`related_tasks` is the dict from relation-kind string to peer lists; it is
embedded as an association list looked up by key. -/
structure RawTask where
  id : Int
  title : String := ""
  description : String := ""
  done : Bool := false
  identifier : String := ""
  priority : Int := 0
  project_id : Int
  related_tasks : List (String × List RelatedTaskInfo) := []
deriving DecidableEq

/-- `related_tasks.get(kind, [])`. -/
def RawTask.rel (t : RawTask) (kind : String) : List RelatedTaskInfo :=
  (t.related_tasks.lookup kind).getD []

/-- `RawTask.blocked_by_ids`: ids under the "blocked" relation. -/
def RawTask.blocked_by_ids (t : RawTask) : List Int :=
  (t.rel "blocked").map (·.id)

/-- `RawTask.blocking_ids`: ids under the "blocking" relation. -/
def RawTask.blocking_ids (t : RawTask) : List Int :=
  (t.rel "blocking").map (·.id)

/-- `RawTask.is_blocked`: true iff any "blocked" peer is not done. -/
def RawTask.is_blocked (t : RawTask) : Bool :=
  (t.rel "blocked").any (fun p => !p.done)

/-- `models.HyperFocusMetadata` (scalar fields; the nested dependency /
contextual-hint records are not read by the verified algorithms). -/
structure HyperFocusMetadata where
  energy : EnergyLevel := .medium
  mode : WorkMode := .deep
  extend : Bool := false
  minutes : Int := 25
  estimate : Int := 25
  hyper_focus_comp : Int := 3
  instructions : String := ""
deriving DecidableEq

/-- `models.Task`: enriched task with parsed hyperfocus metadata. -/
structure Task where
  identifier : String := ""
  raw_task : RawTask
  metadata : Option HyperFocusMetadata := none
  clean_description : String := ""
deriving DecidableEq

/-- `models.FocusOptions` (validated: max_minutes in [5,480], max_tasks in
[1,50]; the bounds are not re-checked here because no verified claim depends
on them). -/
structure FocusOptions where
  energy : EnergyLevel := .medium
  mode : WorkMode := .deep
  max_minutes : Int := 300
  max_tasks : Nat := 10
  instructions : String := "General request, give a good assortment of tasks"
  exclude_projects : List Int := []
  only_projects : List Int := []
deriving DecidableEq

/-- `models.ProjectContext`: per-project productivity profile. -/
structure ProjectContext where
  project_id : Int
  name : String := ""
  description : String := ""
  work_type : String := "general"
  domain : String := ""
  typical_energy : EnergyLevel := .medium
  typical_mode : WorkMode := .deep
  context_weight : Int := 5
  requires_tools : List String := []
  related_projects : List Int := []
deriving DecidableEq

/-- `models.RankedTask`: task with AI-assigned ranking score.  The pydantic
field declares `score: float = Field(ge=0.0, le=1.0)`. -/
structure RankedTask where
  task : Task
  score : ℚ
  reasoning : String := ""
deriving DecidableEq

/-- Pydantic construction of `RankedTask`: validation raises (returns `none`)
when the score is outside the declared [0,1] range. -/
def RankedTask.validate (t : Task) (score : ℚ) (reasoning : String) :
    Option RankedTask :=
  if 0 ≤ score ∧ score ≤ 1 then some ⟨t, score, reasoning⟩ else none

/-- `models.DecisionResponse`: response from the decision engine.  The
pydantic field declares `confidence: float = Field(ge=0.0, le=1.0)`. -/
structure DecisionResponse where
  ranked_tasks : List RankedTask
  reasoning : String
  confidence : ℚ
  strategy : String
  fallback : Bool := false
deriving DecidableEq

/-- Pydantic construction of `DecisionResponse`: validation raises (returns
`none`) when the confidence is outside the declared [0,1] range. -/
def DecisionResponse.validate (ranked : List RankedTask) (reasoning : String)
    (confidence : ℚ) (strategy : String) (fallback : Bool) :
    Option DecisionResponse :=
  if 0 ≤ confidence ∧ confidence ≤ 1 then
    some ⟨ranked, reasoning, confidence, strategy, fallback⟩
  else none

/-! ## Context-switch cost model (`context.py`, `ContextManager`) -/

/-- `energy_order.index` for the ordered levels LOW < MEDIUM < HIGH.
`EnergyLevel.social` is not in `energy_order`; in the source, `.index(social)`
raises `ValueError`, and every call site guards against it first, so the value
returned here for `social` is never read. -/
def energyIdx : EnergyLevel → Nat
  | .low => 0
  | .medium => 1
  | .high => 2
  | .social => 3

/-- `ContextManager.calculate_switch_cost`: cognitive cost of switching
between projects, literal translation of the source arithmetic over ℚ. -/
def calculate_switch_cost (from_project : Option ProjectContext)
    (to_project : ProjectContext) : ℚ :=
  match from_project with
  | none =>
      -- No current context: loading cost, max 0.5 for weights in [1,10]
      (to_project.context_weight : ℚ) / 20
  | some fp =>
      if fp.project_id = to_project.project_id then 0
      else
        let base_cost0 : ℚ :=
          |(fp.context_weight : ℚ) - (to_project.context_weight : ℚ)| / 10
        let base_cost1 : ℚ :=
          if to_project.project_id ∈ fp.related_projects
          then base_cost0 * (1/2) else base_cost0
        let base_cost : ℚ :=
          if fp.domain ≠ "" ∧ fp.domain = to_project.domain
          then base_cost1 * (7/10) else base_cost1
        let work_type_cost : ℚ :=
          if fp.work_type ≠ to_project.work_type then 15/100 else 0
        let energy_cost : ℚ :=
          if fp.typical_energy ≠ to_project.typical_energy then
            if fp.typical_energy = .social ∨ to_project.typical_energy = .social
            then 2/10
            else |(energyIdx fp.typical_energy : ℚ) -
                  (energyIdx to_project.typical_energy : ℚ)| * (1/10)
          else 0
        let tool_cost : ℚ :=
          if fp.requires_tools ≠ [] ∧ to_project.requires_tools ≠ [] ∧
             fp.requires_tools.all (fun x => x ∉ to_project.requires_tools)
          then 1/10 else 0
        min 1 (base_cost + work_type_cost + energy_cost + tool_cost)

/-! ## Dependency checker (`dependencies/checker.py`) -/

/-- `DependencyChain` analysis record. -/
structure DependencyChain where
  root_task_id : Int
  chain_tasks : List Int
  total_tasks : Nat
  completed_tasks : Nat
  progress_percent : ℚ
  next_actionable_ids : List Int
deriving DecidableEq

/-- `BlockingInfo` analysis record. -/
structure BlockingInfo where
  task_id : Int
  is_blocked : Bool
  blocked_by_incomplete : List Int
  blocked_by_complete : List Int
  blocks_others : List Int
  chain_context : Option DependencyChain := none
deriving DecidableEq

/-- `DependencyChecker.filter_blocked_tasks`: partition into
(actionable, blocked) preserving input order. -/
def filter_blocked_tasks (tasks : List Task) : List Task × List Task :=
  (tasks.filter (fun t => !t.raw_task.is_blocked),
   tasks.filter (fun t => t.raw_task.is_blocked))

/-- `task_map.get(i)`: the source builds `{t.id: t for t in all_tasks}`, where
a duplicated id keeps the last task; looking the reversed list up from the
front reproduces that. -/
def taskLookup (m : List RawTask) (i : Int) : Option RawTask :=
  m.reverse.find? (fun t => t.id == i)

/-- `DependencyChecker._find_chain_root`, embedded with explicit fuel (the
source recursion is guarded by the shared mutable `visited` set; termination
for every input is proved below as fuel-independence).  The Python `visited`
set is mutated in place across the blocker loop, so it is threaded through and
returned.  The blocker loop is the inner `foldl`: once a root is found the
accumulator is fixed, matching the source's early `return`. -/
def find_chain_root : Nat → List RawTask → RawTask → Finset Int →
    Option Int × Finset Int
  | 0, _, _, visited => (none, visited)
  | fuel + 1, m, t, visited =>
    if t.id ∈ visited then (none, visited)   -- circular dependency
    else
      let visited1 := insert t.id visited
      let blocked_by := t.rel "blocked"
      if blocked_by = [] then (some t.id, visited1)  -- no blockers: the root
      else
        let r :=
          blocked_by.foldl
            (fun (acc : Option Int × Finset Int) b =>
              match acc with
              | (some _, _) => acc
              | (none, v) =>
                match taskLookup m b.id with
                | none => (none, v)
                | some blocker => find_chain_root fuel m blocker v)
            (none, visited1)
        match r with
        | (some root, v) => (some root, v)
        | (none, v) => (some t.id, v)  -- fallback if blockers not in task_map

/-- `DependencyChecker._build_chain_order`, embedded with explicit fuel; same
threading of the mutable `visited` set as `find_chain_root`. -/
def build_chain_order : Nat → List RawTask → Int → Finset Int →
    List Int × Finset Int
  | 0, _, _, visited => ([], visited)
  | fuel + 1, m, start_id, visited =>
    if start_id ∈ visited then ([], visited)
    else
      let visited1 := insert start_id visited
      match taskLookup m start_id with
      | none => ([start_id], visited1)
      | some t =>
        let r :=
          t.blocking_ids.foldl
            (fun (acc : List Int × Finset Int) blocked_id =>
              let s := build_chain_order fuel m blocked_id acc.2
              (acc.1 ++ s.1, s.2))
            ([], visited1)
        (start_id :: r.1, r.2)

/-- Python `round(x, 1)` on the progress percentage, modelled as round-half-up
to one decimal (the float banker's rounding differs only on exact .x5 ties,
which no verified claim exercises). -/
def round1 (q : ℚ) : ℚ := (round (q * 10) : ℤ) / 10

/-- `DependencyChecker._analyze_chain` with explicit fuel. -/
def analyze_chain (fuel : Nat) (t : RawTask) (m : List RawTask) :
    Option DependencyChain :=
  match find_chain_root fuel m t ∅ with
  | (none, _) => none
  | (some root_id, _) =>
    let chain_tasks := (build_chain_order fuel m root_id ∅).1
    if chain_tasks.length < 2 then none
    else
      let completed :=
        (chain_tasks.filter (fun tid => ((taskLookup m tid).getD t).done)).length
      let total := chain_tasks.length
      let next_actionable :=
        chain_tasks.filter (fun tid =>
          match taskLookup m tid with
          | some t₂ => !t₂.done && !t₂.is_blocked
          | none => false)
      some
        { root_task_id := root_id
          chain_tasks := chain_tasks
          total_tasks := total
          completed_tasks := completed
          progress_percent :=
            if 0 < total then round1 ((completed : ℚ) / (total : ℚ) * 100) else 0
          next_actionable_ids := next_actionable }

/-- `DependencyChecker.get_blocking_info` with explicit fuel for the chain
analysis. -/
def get_blocking_info (fuel : Nat) (t : RawTask) (all_tasks : List RawTask) :
    BlockingInfo :=
  let blocked_tasks := t.rel "blocked"
  { task_id := t.id
    is_blocked := t.is_blocked
    blocked_by_incomplete := ((blocked_tasks.filter (fun b => !b.done)).map (·.id))
    blocked_by_complete := ((blocked_tasks.filter (fun b => b.done)).map (·.id))
    blocks_others := t.blocking_ids
    chain_context := analyze_chain fuel t all_tasks }

/-- `DependencyChecker.calculate_chain_progress` with explicit fuel: progress
pairs (completed, total) per chain-eligible task (the source renders them as
strings; the numeric content is kept). -/
def calculate_chain_progress (fuel : Nat) (tasks : List RawTask) :
    List (Int × Nat × Nat) :=
  tasks.filterMap (fun t =>
    (analyze_chain fuel t tasks).map (fun c => (t.id, c.completed_tasks, c.total_tasks)))

/-- Id set of a task list, for the fuel bounds of the chain walks. -/
def idSet (m : List RawTask) : Finset Int := (m.map (·.id)).toFinset

/-! ## Character-list utilities shared by the text-processing paths

Python `str` values manipulated by the source are embedded as `List Char`. -/

/-- The characters removed by Python `str.strip()` (ASCII whitespace). -/
def isPySpace (c : Char) : Bool :=
  c = ' ' || c = '\t' || c = '\n' || c = '\r' || c = '\x0b' || c = '\x0c'

/-- Python `str.strip()`. -/
def pyStrip (l : List Char) : List Char :=
  ((l.dropWhile isPySpace).reverse.dropWhile isPySpace).reverse

/-- A regex `\w` character (ASCII portion, which is all the fence language
tags use). -/
def isWordChar (c : Char) : Bool := c.isAlpha || c.isDigit || c = '_'

/-- The code-fence marker. -/
def fence : List Char := "```".data

/-- Drop a single leading newline if present (the `\n?` of `^` + fence + `\w*\n?`). -/
def dropLeadNl : List Char → List Char
  | '\n' :: r => r
  | r => r

/-- Drop a single trailing newline if present (the `\n?` of `\n?` + fence + `$`). -/
def dropTrailNl (l : List Char) : List Char :=
  if l.getLast? = some '\n' then l.dropLast else l

/-- The fence cleanup of `FocusEngine._parse_ranking_response` /
`_parse_enrichment_response`: strip, then if the text starts with a fence,
delete the leading fence marker with its language word and optional newline,
and delete a trailing fence marker with its optional preceding newline.
(The input to the trailing deletion never ends in a newline here because the
text was stripped first, so the regex `$` anchor is plain end-of-string.) -/
def cleanup_response (txt : List Char) : List Char :=
  let t := pyStrip txt
  if fence.isPrefixOf t then
    let t1 := dropLeadNl ((t.drop 3).dropWhile isWordChar)
    if fence.isSuffixOf t1 then dropTrailNl (t1.take (t1.length - 3)) else t1
  else t

/-! ## Decoded-JSON values

`json.loads` itself is an external library; the engine's handling of the
decoded value is embedded over this value type.  Python `bool` is an `int`
subtype, so booleans participate in numeric contexts. -/

inductive JVal where
  | jint : Int → JVal
  | jnum : ℚ → JVal
  | jstr : String → JVal
  | jbool : Bool → JVal
  | jnull : JVal
  | jarr : List JVal → JVal
  | jobj : List (String × JVal) → JVal

/-- Python `dict.get(k, d)`. -/
def jGetD (o : List (String × JVal)) (k : String) (d : JVal) : JVal :=
  (o.lookup k).getD d

/-- Numeric view for comparisons and arithmetic; `none` means the Python
operation would raise `TypeError`. -/
def jNum? : JVal → Option ℚ
  | .jint i => some (i : ℚ)
  | .jnum q => some q
  | .jbool b => some (if b then 1 else 0)
  | _ => none

/-- Values usable as a Python list index (ints and bools; floats raise). -/
def jIdx? : JVal → Option Int
  | .jint i => some i
  | .jbool b => some (if b then 1 else 0)
  | _ => none

/-- String view; `none` = pydantic/type error. -/
def jStr? : JVal → Option String
  | .jstr s => some s
  | _ => none

/-- List view; `none` = slice/iteration on a non-list raises. -/
def jArr? : JVal → Option (List JVal)
  | .jarr l => some l
  | _ => none

/-! ## Stable descending sorts

Python's `sorted(..., reverse=True)` / `list.sort(reverse=True)` is the unique
stable descending order; `List.insertionSort` with the relation
`fun a b => key b ≤ key a` realises exactly it (proved stable below). -/

/-- `sorted(tasks, key=lambda t: t.raw_task.priority, reverse=True)`. -/
def sortByPriorityDesc (tasks : List Task) : List Task :=
  List.insertionSort (fun a b => b.raw_task.priority ≤ a.raw_task.priority) tasks

/-- `ranked_tasks.sort(key=lambda x: x.score, reverse=True)`. -/
def sortByScoreDesc (l : List RankedTask) : List RankedTask :=
  List.insertionSort (fun a b => b.score ≤ a.score) l

/-! ## Focus ranking orchestrator (`engine/focus_engine.py`) -/

/-- `FocusEngine._energy_matches`. -/
def energy_matches (task_energy user_energy : EnergyLevel) : Bool :=
  if task_energy = .social ∨ user_energy = .social then task_energy = user_energy
  else energyIdx task_energy ≤ energyIdx user_energy

/-- `FocusEngine._mode_matches`. -/
def mode_matches (task_mode user_mode : WorkMode) : Bool :=
  task_mode = user_mode ∨ user_mode = .admin

/-- The contextual-filter stages of `FocusEngine._apply_filters` (project
include/exclude via Python truthiness on the option lists, completed-task
removal, energy/mode compatibility for tasks that carry metadata). -/
def context_filtered (tasks : List Task) (options : FocusOptions) : List Task :=
  let f1 :=
    if options.only_projects ≠ [] then
      tasks.filter (fun t => t.raw_task.project_id ∈ options.only_projects)
    else tasks
  let f2 :=
    if options.exclude_projects ≠ [] then
      f1.filter (fun t => t.raw_task.project_id ∉ options.exclude_projects)
    else f1
  let f3 := f2.filter (fun t => !t.raw_task.done)
  f3.filter (fun t =>
    match t.metadata with
    | none => true
    | some md => energy_matches md.energy options.energy &&
        mode_matches md.mode options.mode)

/-- `FocusEngine._apply_filters`: contextual filters, then the dependency
split into (actionable, blocked). -/
def apply_filters (tasks : List Task) (options : FocusOptions) :
    List Task × List Task :=
  filter_blocked_tasks (context_filtered tasks options)

/-- One entry of the `ranked_tasks` loop of
`FocusEngine._parse_ranking_response`.  Outer `none` = the Python line raised;
`some none` = the entry's index was out of range and it was skipped silently;
`some (some rt)` = the entry was appended. -/
def build_ranked_item (tasks : List Task) (item : JVal) :
    Option (Option RankedTask) :=
  match item with
  | .jobj o =>
    let idxv := jGetD o "index" (.jint 0)
    match jNum? idxv with
    | none => none
    | some q =>
      if 0 ≤ q ∧ q < (tasks.length : ℚ) then
        match jIdx? idxv with
        | none => none
        | some i =>
          match tasks[i.toNat]? with
          | none => none
          | some tk =>
            match jNum? (jGetD o "score" (.jnum (1/2))) with
            | none => none
            | some s =>
              match jStr? (jGetD o "reasoning" (.jstr "")) with
              | none => none
              | some rs => (RankedTask.validate tk (min 1 (max 0 s)) rs).map some
      else some none
  | _ => none

/-- The post-decode part of `FocusEngine._parse_ranking_response`: take the
first 10 entries, keep the in-range ones, sort by score descending (stable),
clamp confidence. -/
def build_decision (data : JVal) (tasks : List Task) : Option DecisionResponse :=
  match data with
  | .jobj o =>
    match jArr? (jGetD o "ranked_tasks" (.jarr [])) with
    | none => none
    | some items =>
      match (items.take 10).mapM (build_ranked_item tasks) with
      | none => none
      | some picked =>
        let ranked := sortByScoreDesc (picked.filterMap id)
        match jStr? (jGetD o "overall_reasoning" (.jstr "AI-ranked tasks")) with
        | none => none
        | some reasoning =>
          match jNum? (jGetD o "confidence" (.jnum (7/10))) with
          | none => none
          | some c =>
            DecisionResponse.validate ranked reasoning (min 1 (max 0 c))
              "gemini_ranking" false
  | _ => none

/-- `FocusEngine._parse_ranking_response`, parametrised by the JSON decoder
(`json.loads`); `decode = none` is a `JSONDecodeError`. -/
def parse_ranking_response (decode : List Char → Option JVal)
    (response_text : List Char) (tasks : List Task) : Option DecisionResponse :=
  match decode (cleanup_response response_text) with
  | none => none
  | some data => build_decision data tasks

/-- `FocusEngine._heuristic_fallback`: priority-descending stable sort,
truncate to `max_tasks`, score `0.5 + priority*0.1` (validated by the
RankedTask model, which raises outside [0,1]). -/
def heuristic_fallback (tasks : List Task) (options : FocusOptions) :
    Option DecisionResponse :=
  let sorted_tasks := sortByPriorityDesc tasks
  match (sorted_tasks.take options.max_tasks).mapM (fun t =>
      RankedTask.validate t (1/2 + (t.raw_task.priority : ℚ) * (1/10))
        "Priority-based heuristic") with
  | none => none
  | some ranked =>
    DecisionResponse.validate ranked
      "Used heuristic fallback due to AI service unavailability"
      (6/10) "heuristic_fallback" true

/-- `FocusEngine.get_focus_tasks`, with the oracle call abstracted:
`oracle_response = none` means `generate_content` raised, `some txt` is the
returned text.  The overall `none` means the call raised (which the source
only does when the fallback's own model validation raises). -/
def get_focus_tasks (decode : List Char → Option JVal)
    (oracle_response : Option (List Char)) (tasks : List Task)
    (options : FocusOptions) : Option DecisionResponse :=
  let actionable := (apply_filters tasks options).1
  let blocked := (apply_filters tasks options).2
  if actionable = [] then
    DecisionResponse.validate []
      ("No actionable tasks match current context" ++
        (if blocked ≠ [] then
          " (" ++ toString blocked.length ++ " tasks are blocked by dependencies)"
        else ""))
      0 "contextual_filter" false
  else
    match oracle_response with
    | none => heuristic_fallback actionable options
    | some txt =>
      match parse_ranking_response decode txt actionable with
      | some result => some result
      | none => heuristic_fallback actionable options

/-! ## Task-order scheduler (`context.py`, grouping and greedy emission) -/

/-- The bucket a task lands in: its own project id when the id is a key of
`project_map`, otherwise the unknown-project bucket `0`. -/
def bucketKey (projectIds : List Int) (t : Task) : Int :=
  if t.raw_task.project_id ∈ projectIds then t.raw_task.project_id else 0

/-- Append `t` to the group of key `k` of an insertion-ordered association
list, creating the group at the end if absent (Python `defaultdict(list)`
insertion order). -/
def addToGroup (g : List (Int × List Task)) (k : Int) (t : Task) :
    List (Int × List Task) :=
  if g.any (fun kv => kv.1 == k) then
    g.map (fun kv => if kv.1 == k then (kv.1, kv.2 ++ [t]) else kv)
  else g ++ [(k, [t])]

/-- `ContextManager.group_tasks_by_project`. -/
def group_tasks_by_project (tasks : List Task) (projects : List ProjectContext) :
    List (Int × List Task) :=
  let pids := projects.map (·.project_id)
  tasks.foldl (fun g t => addToGroup g (bucketKey pids t) t) []

/-- `project_map.get(pid)` for `project_map = {p.project_id: p}` (a duplicated
project id keeps the last context). -/
def project_map_get (projects : List ProjectContext) (pid : Int) :
    Option ProjectContext :=
  projects.reverse.find? (fun p => p.project_id == pid)

/-- The inner candidate-selection loop of `ContextManager.optimize_task_order`:
running `(min_cost, best_project_id)` state, strict `<` updates, `0.5` for a
group whose context cannot be resolved; `none` accumulator is the initial
`min_cost = inf`, `best = None` state. -/
def select_best (pm : Int → Option ProjectContext) (last : Option ProjectContext)
    (grouped : List (Int × List Task)) : Option Int :=
  (grouped.foldl
    (fun (acc : Option (ℚ × Int)) kv =>
      match pm kv.1 with
      | some ctx =>
        let cost := calculate_switch_cost last ctx
        match acc with
        | none => some (cost, kv.1)
        | some (mc, _) => if cost < mc then some (cost, kv.1) else acc
      | none =>
        match acc with
        | none => some (1/2, kv.1)
        | some (mc, _) => if (1/2 : ℚ) < mc then some (1/2, kv.1) else acc)
    none).map (·.2)

/-- The candidate cost `select_best` assigns to a group key: the switch cost
from the last context when the key resolves, the default `0.5` otherwise. -/
def candidate_cost (pm : Int → Option ProjectContext)
    (last : Option ProjectContext) (pid : Int) : ℚ :=
  match pm pid with
  | some ctx => calculate_switch_cost last ctx
  | none => 1/2

/-- Leftmost minimiser of a cost function over a key list (specification
definition, compared with `select_best` in the theorems below). -/
def argmin_leftmost (cost : Int → ℚ) : List Int → Option Int
  | [] => none
  | k :: ks =>
    match argmin_leftmost cost ks with
    | none => some k
    | some b => if cost b < cost k then some b else some k

/-- The `while grouped:` loop of `ContextManager.optimize_task_order`,
with fuel equal to the number of remaining groups (each iteration of the
source loop removes exactly one group, as proved below; on the unreachable
`best_project_id is None` branch the source would loop forever). -/
def greedy_emit (pm : Int → Option ProjectContext) :
    Nat → Option ProjectContext → List (Int × List Task) → List Task
  | 0, _, _ => []
  | fuel + 1, last, grouped =>
    if grouped.isEmpty then []
    else
      match select_best pm last grouped with
      | some pid =>
        ((grouped.find? (fun kv => kv.1 == pid)).map (·.2)).getD [] ++
          greedy_emit pm fuel (pm pid) (grouped.eraseP (fun kv => kv.1 == pid))
      | none => []

/-- `ContextManager.optimize_task_order`.  Python truthiness: a current
project id of `None` *or `0`* skips both the initial-group pop and the
initial `last_project` lookup. -/
def optimize_task_order (tasks : List Task) (projects : List ProjectContext)
    (current_project_id : Option Int) : List Task :=
  if tasks.length ≤ 1 then tasks
  else
    let pm := project_map_get projects
    let grouped := group_tasks_by_project tasks projects
    let cur := current_project_id.getD 0
    let curPresent := cur ≠ 0 ∧ grouped.any (fun kv => kv.1 == cur)
    let initial :=
      if curPresent then ((grouped.find? (fun kv => kv.1 == cur)).map (·.2)).getD []
      else []
    let grouped1 :=
      if curPresent then grouped.eraseP (fun kv => kv.1 == cur) else grouped
    let last0 := if cur ≠ 0 then pm cur else none
    initial ++ greedy_emit pm grouped1.length last0 grouped1

/-! ## Natural-language filter translation
(`engine/focus_engine.py::suggest_filter`,
`tools/handlers.py::get_filtered_tasks`) -/

/-- One failed filter attempt: the attempted filter text and the error. -/
structure Attempt where
  filter : String
  error : String
deriving DecidableEq

/-- The `error_context` block of `FocusEngine.suggest_filter` (empty when
there are no previous errors, by Python truthiness). -/
def error_context (previous_errors : List Attempt) : String :=
  if previous_errors = [] then ""
  else
    "\n\nPREVIOUS ATTEMPTS FAILED:\n" ++
      String.join (previous_errors.enum.map (fun p =>
        toString (p.1 + 1) ++ ". Filter: " ++ p.2.filter ++ " -> Error: " ++
          p.2.error ++ "\n")) ++
      "\nPlease generate a CORRECTED filter avoiding these errors."

/-- The prompt of `FocusEngine.suggest_filter`. -/
def filter_prompt (natural_request : String) (previous_errors : List Attempt) :
    String :=
  "Convert this natural language request to a Vikunja filter expression.\n\nRequest: "
    ++ natural_request ++
    "\n\nVikunja filter syntax:\n- done = false (incomplete tasks)\n- priority >= 3 (high priority)\n- project_id = 5 (specific project)\n- Use && for AND, || for OR\n- String values need quotes: title ~ \"keyword\"\n- Date filters: due_date < now (overdue tasks)\n"
    ++ error_context previous_errors ++
    "\n\nReturn ONLY the filter expression, nothing else. No markdown, no explanation."

/-- The markdown cleanup of `FocusEngine.suggest_filter`: strip; if the text
starts with a fence, `split("\n", 1)[-1]` (everything after the first
newline, or the unchanged text when it has none); if it ends with a fence,
`rsplit("` + three backticks + `", 1)[0]` (for a text ending in the fence,
everything before that final fence); strip again. -/
def clean_filter_text (raw : List Char) : List Char :=
  let f0 := pyStrip raw
  let f1 :=
    if fence.isPrefixOf f0 then
      if f0.contains '\n' then (f0.dropWhile (fun c => c ≠ '\n')).drop 1 else f0
    else f0
  let f2 := if fence.isSuffixOf f1 then f1.take (f1.length - 3) else f1
  pyStrip f2

/-- `FocusEngine.suggest_filter`: the oracle is a function from the prompt to
its reply (`none` = the call raised, in which case the source logs and
returns the literal `"done = false"`). -/
def suggest_filter (oracle : String → Option String) (natural_request : String)
    (previous_errors : List Attempt) : String :=
  match oracle (filter_prompt natural_request previous_errors) with
  | some raw => String.mk (clean_filter_text raw.data)
  | none => "done = false"

/-- Summary block of a successful `get_filtered_tasks` response; the retry
fields are only present when retries happened. -/
structure FilterSummary where
  total_tasks : Nat
  filter_type : String
  filter_used : String
  retry_attempts : Option Nat := none
  previous_errors : Option (List Attempt) := none
deriving DecidableEq

/-- Successful `get_filtered_tasks` response (tasks kept as raw tasks; the
dict rendering of each task has no algorithmic content). -/
structure FilterResponse where
  message : String
  summary : FilterSummary
  tasks : List RawTask
deriving DecidableEq

/-- The aggregated error raised after exhausting all retries. -/
structure FilterErrorReport where
  error : String
  original_request : String
  total_attempts : Nat
  attempts : List Attempt
  suggestion : String
deriving DecidableEq

/-- The filter a loop iteration executes: the engine's suggestion for the
accumulated previous errors, wrapped with the project clause when a nonzero
project id is given (Python truthiness). -/
def attempt_filter (oracle : String → Option String) (natural_request : String)
    (project_id : Option Int) (previous : List Attempt) : String :=
  let filt := suggest_filter oracle natural_request previous
  if project_id.getD 0 = 0 then filt
  else "(" ++ filt ++ ") && project_id = " ++ toString (project_id.getD 0)

/-- The retry loop of `VikunjaToolHandlers.get_filtered_tasks` for a
natural-language request: `execF` is the external
`vikunja.get_filtered_tasks` (error = the exception text).  Fuel counts the
remaining attempts out of `max_retries = 3`. -/
def nl_filter_loop (oracle : String → Option String)
    (execF : String → Except String (List RawTask)) (natural_request : String)
    (project_id : Option Int) (limit : Nat) :
    Nat → List Attempt → Except FilterErrorReport FilterResponse
  | 0, attempts =>
    .error
      { error := "Failed to generate valid filter after maximum retries"
        original_request := natural_request
        total_attempts := 3
        attempts := attempts
        suggestion := "Try rephrasing your request or use a direct filter expression. Examples: \x27done = false\x27, \x27priority >= 3\x27, \x27project_id = 5\x27" }
  | n + 1, attempts =>
    let final_filter := attempt_filter oracle natural_request project_id attempts
    match execF final_filter with
    | .ok raw_tasks =>
      .ok
        { message := "Filtered tasks retrieved successfully"
          summary :=
            { total_tasks := (raw_tasks.take limit).length
              filter_type := "natural_language"
              filter_used := final_filter
              retry_attempts := if attempts = [] then none else some attempts.length
              previous_errors := if attempts = [] then none else some attempts }
          tasks := raw_tasks.take limit }
    | .error e =>
      nl_filter_loop oracle execF natural_request project_id limit n
        (attempts ++ [⟨final_filter, e⟩])

/-- `VikunjaToolHandlers.get_filtered_tasks`, natural-language path. -/
def get_filtered_tasks_nl (oracle : String → Option String)
    (execF : String → Except String (List RawTask)) (natural_request : String)
    (project_id : Option Int) (limit : Nat) :
    Except FilterErrorReport FilterResponse :=
  nl_filter_loop oracle execF natural_request project_id limit 3 []

/-! ## Embedded HYPERFOCUS_METADATA blocks
(`tools/handlers.py::_extract_metadata`,
`engine/focus_engine.py::_embed_metadata`)

The pattern is the literal start marker, a non-greedy
`(.*?)` group (DOTALL), and the literal end marker, so matching is plain
leftmost substring search: the match starts at the first start-marker
occurrence and its group runs to the first end-marker occurrence after it. -/

/-- The literal before the `(.*?)` group of the metadata pattern. -/
def startMarker : List Char := "<!-- HYPERFOCUS_METADATA:".data

/-- The literal after the `(.*?)` group of the metadata pattern. -/
def endMarker : List Char := ":END_METADATA -->".data

/-- Index of the first occurrence of `p` in a char list (`none` if absent). -/
def findSub (p : List Char) : List Char → Option Nat
  | [] => if p.isPrefixOf ([] : List Char) then some 0 else none
  | c :: rest =>
    if p.isPrefixOf (c :: rest) then some 0
    else (findSub p rest).map (· + 1)

/-- `re.search` of the metadata pattern: `some (s, e, g)` is the leftmost
match spanning `[s, e)` with group content `g`.  (If the first start-marker
occurrence has no end marker after it, no later one does either, so searching
from the first start marker is exactly leftmost-match.) -/
def matchBlock (l : List Char) : Option (Nat × Nat × List Char) :=
  match findSub startMarker l with
  | none => none
  | some s =>
    let afterStart := l.drop (s + startMarker.length)
    match findSub endMarker afterStart with
    | none => none
    | some g =>
      some (s, s + startMarker.length + g + endMarker.length, afterStart.take g)

/-- `re.sub(pattern, "", l)`: delete every non-overlapping match, scanning
left to right. -/
def removeBlocks (l : List Char) : List Char :=
  match h : matchBlock l with
  | none => l
  | some (s, e, _) => l.take s ++ removeBlocks (l.drop e)
termination_by l.length
decreasing_by
  unfold matchBlock at h
  split at h
  · exact absurd h (by simp)
  next s₀ hf =>
    dsimp only at h
    split at h
    · exact absurd h (by simp)
    next g₀ hg =>
      have hne : l ≠ [] := by
        intro hl
        rw [hl, show findSub startMarker [] = none from by decide] at hf
        exact absurd hf (by simp)
      have hlen : 0 < l.length := List.length_pos.mpr hne
      have he : e = s₀ + startMarker.length + g₀ + endMarker.length := by
        simp only [Option.some.injEq, Prod.mk.injEq] at h
        exact h.2.1.symm
      have hm : 0 < endMarker.length := by decide
      simp only [List.length_drop]
      omega

/-- `VikunjaToolHandlers._extract_metadata`, parametrised by the JSON-decode +
pydantic-construction step applied to the matched group (`parseMeta g = none`
is the `json.JSONDecodeError` / `ValueError` path, which returns the original
description with no metadata). -/
def extract_metadata (parseMeta : List Char → Option HyperFocusMetadata)
    (description : List Char) : List Char × Option HyperFocusMetadata :=
  match matchBlock description with
  | none => (description, none)
  | some (_, _, g) =>
    match parseMeta g with
    | none => (description, none)
    | some metadata => (pyStrip (removeBlocks description), some metadata)

/-- `FocusEngine._embed_metadata`, parametrised by the serializer
(`metadata.model_dump_json()`). -/
def embed_metadata (serializeMeta : HyperFocusMetadata → List Char)
    (description : List Char) (metadata : HyperFocusMetadata) : List Char :=
  description ++ "\n\n".data ++ startMarker ++ serializeMeta metadata ++ endMarker

/-- A minimal concrete decode step for exercising the metadata pipeline: it
accepts exactly the serialization of the all-defaults record. -/
def parseMetaLit (g : List Char) : Option HyperFocusMetadata :=
  if g = "\x7b\x7d".data then some {} else none

/-- The matching concrete serializer (an empty JSON object, since every field
of the record carries a default). -/
def serializeMetaLit (_ : HyperFocusMetadata) : List Char := "\x7b\x7d".data

/-! ## Named pieces of the switch-cost expression (the source's local
variables `base_cost`, `work_type_cost`, `energy_cost`, `tool_cost`) -/

/-- `base_cost` after the related-project and same-domain discounts. -/
def switch_base_cost (fp tp : ProjectContext) : ℚ :=
  let base_cost0 : ℚ :=
    |(fp.context_weight : ℚ) - (tp.context_weight : ℚ)| / 10
  let base_cost1 : ℚ :=
    if tp.project_id ∈ fp.related_projects then base_cost0 * (1/2) else base_cost0
  if fp.domain ≠ "" ∧ fp.domain = tp.domain then base_cost1 * (7/10) else base_cost1

/-- `work_type_cost`. -/
def switch_work_cost (fp tp : ProjectContext) : ℚ :=
  if fp.work_type ≠ tp.work_type then 15/100 else 0

/-- `energy_cost`. -/
def switch_energy_cost (fp tp : ProjectContext) : ℚ :=
  if fp.typical_energy ≠ tp.typical_energy then
    if fp.typical_energy = .social ∨ tp.typical_energy = .social then 2/10
    else |(energyIdx fp.typical_energy : ℚ) -
          (energyIdx tp.typical_energy : ℚ)| * (1/10)
  else 0

/-- `tool_cost`. -/
def switch_tool_cost (fp tp : ProjectContext) : ℚ :=
  if fp.requires_tools ≠ [] ∧ tp.requires_tools ≠ [] ∧
     fp.requires_tools.all (fun x => x ∉ tp.requires_tools)
  then 1/10 else 0

/-- Boolean contiguity checker: all tasks of project `p` occupy consecutive
positions of `l`. -/
def contigBy (l : List Task) (p : Int) : Bool :=
  (((l.dropWhile (fun t => t.raw_task.project_id ≠ p)).dropWhile
      (fun t => t.raw_task.project_id = p)).all
    (fun t => t.raw_task.project_id ≠ p))

/-! # Theorems -/

/-! ## Switch-cost lemmas -/

theorem calculate_switch_cost_some (fp tp : ProjectContext) :
    calculate_switch_cost (some fp) tp =
      if fp.project_id = tp.project_id then 0
      else
        min 1 (switch_base_cost fp tp + switch_work_cost fp tp +
          switch_energy_cost fp tp + switch_tool_cost fp tp) := rfl

theorem switch_base_cost_nonneg (fp tp : ProjectContext) :
    0 ≤ switch_base_cost fp tp := by
  unfold switch_base_cost
  have h0 : (0 : ℚ) ≤ |(fp.context_weight : ℚ) - (tp.context_weight : ℚ)| / 10 :=
    by positivity
  dsimp only
  split_ifs <;> positivity

theorem switch_work_cost_nonneg (fp tp : ProjectContext) :
    0 ≤ switch_work_cost fp tp := by
  unfold switch_work_cost; split_ifs <;> norm_num

theorem switch_energy_cost_nonneg (fp tp : ProjectContext) :
    0 ≤ switch_energy_cost fp tp := by
  unfold switch_energy_cost
  split_ifs <;> positivity

theorem switch_tool_cost_nonneg (fp tp : ProjectContext) :
    0 ≤ switch_tool_cost fp tp := by
  unfold switch_tool_cost; split_ifs <;> norm_num

theorem switch_base_cost_le (fp tp : ProjectContext)
    (h1 : 1 ≤ fp.context_weight) (h2 : fp.context_weight ≤ 10)
    (h3 : 1 ≤ tp.context_weight) (h4 : tp.context_weight ≤ 10) :
    switch_base_cost fp tp ≤ 9/10 := by
  unfold switch_base_cost
  have ha : (1 : ℚ) ≤ (fp.context_weight : ℚ) := by exact_mod_cast h1
  have hb : (fp.context_weight : ℚ) ≤ 10 := by exact_mod_cast h2
  have hc : (1 : ℚ) ≤ (tp.context_weight : ℚ) := by exact_mod_cast h3
  have hd : (tp.context_weight : ℚ) ≤ 10 := by exact_mod_cast h4
  have h0 : |(fp.context_weight : ℚ) - (tp.context_weight : ℚ)| ≤ 9 :=
    abs_le.mpr ⟨by linarith, by linarith⟩
  have h0n : 0 ≤ |(fp.context_weight : ℚ) - (tp.context_weight : ℚ)| := abs_nonneg _
  dsimp only
  split_ifs <;> linarith

theorem switch_work_cost_le (fp tp : ProjectContext) :
    switch_work_cost fp tp ≤ 15/100 := by
  unfold switch_work_cost; split_ifs <;> norm_num

theorem switch_energy_cost_le (fp tp : ProjectContext) :
    switch_energy_cost fp tp ≤ 2/10 := by
  unfold switch_energy_cost
  split_ifs with h h2
  · norm_num
  · push_neg at h2
    obtain ⟨ha, hb⟩ := h2
    have hi : (energyIdx fp.typical_energy : ℚ) ≤ 2 := by
      cases hfp : fp.typical_energy <;>
        first | exact absurd hfp ha | norm_num [energyIdx]
    have hj : (energyIdx tp.typical_energy : ℚ) ≤ 2 := by
      cases htp : tp.typical_energy <;>
        first | exact absurd htp hb | norm_num [energyIdx]
    have hi0 : (0 : ℚ) ≤ (energyIdx fp.typical_energy : ℚ) := by positivity
    have hj0 : (0 : ℚ) ≤ (energyIdx tp.typical_energy : ℚ) := by positivity
    have habs : |(energyIdx fp.typical_energy : ℚ) -
        (energyIdx tp.typical_energy : ℚ)| ≤ 2 :=
      abs_le.mpr ⟨by linarith, by linarith⟩
    linarith
  · norm_num

theorem switch_tool_cost_le (fp tp : ProjectContext) :
    switch_tool_cost fp tp ≤ 1/10 := by
  unfold switch_tool_cost; split_ifs <;> norm_num

/-- C5: `calculate_switch_cost` stays in [0,1] (shown for context weights in
the model's declared [1,10] range), the no-current-context cost is exactly
`context_weight/20` and hence in [0,0.5], a same-project switch costs exactly
0, and a concrete worst-case pair (weights 10 vs 1, different work type,
HIGH vs LOW energy, disjoint declared tools, different domains, unrelated)
costs exactly 1. -/
theorem C5_calculate_switch_cost_range :
    (∀ (fp : Option ProjectContext) (tp : ProjectContext),
       1 ≤ tp.context_weight → tp.context_weight ≤ 10 →
       0 ≤ calculate_switch_cost fp tp ∧ calculate_switch_cost fp tp ≤ 1) ∧
    (∀ tp : ProjectContext,
       calculate_switch_cost none tp = (tp.context_weight : ℚ) / 20 ∧
       (1 ≤ tp.context_weight → tp.context_weight ≤ 10 →
         0 ≤ calculate_switch_cost none tp ∧
         calculate_switch_cost none tp ≤ 1/2)) ∧
    (∀ fp tp : ProjectContext, fp.project_id = tp.project_id →
       calculate_switch_cost (some fp) tp = 0) ∧
    calculate_switch_cost
        (some { project_id := 1, work_type := "coding", domain := "infra",
                typical_energy := .high, context_weight := 10,
                requires_tools := ["vscode"] })
        { project_id := 2, work_type := "writing", domain := "prose",
          typical_energy := .low, context_weight := 1,
          requires_tools := ["pen"] } = 1 := by
  refine ⟨?_, ?_, ?_, ?_⟩
  · rintro (_ | fp) tp h1 h2
    · constructor
      · show (0 : ℚ) ≤ (tp.context_weight : ℚ) / 20
        have : (1 : ℚ) ≤ (tp.context_weight : ℚ) := by exact_mod_cast h1
        linarith
      · show (tp.context_weight : ℚ) / 20 ≤ 1
        have : (tp.context_weight : ℚ) ≤ 10 := by exact_mod_cast h2
        linarith
    · rw [calculate_switch_cost_some]
      split_ifs
      · norm_num
      · constructor
        · refine le_min (by norm_num) ?_
          have := switch_base_cost_nonneg fp tp
          have := switch_work_cost_nonneg fp tp
          have := switch_energy_cost_nonneg fp tp
          have := switch_tool_cost_nonneg fp tp
          linarith
        · exact min_le_left _ _
  · intro tp
    refine ⟨rfl, fun h1 h2 => ?_⟩
    have ha : (1 : ℚ) ≤ (tp.context_weight : ℚ) := by exact_mod_cast h1
    have hb : (tp.context_weight : ℚ) ≤ 10 := by exact_mod_cast h2
    constructor
    · show (0 : ℚ) ≤ (tp.context_weight : ℚ) / 20
      linarith
    · show (tp.context_weight : ℚ) / 20 ≤ 1/2
      linarith
  · intro fp tp h
    rw [calculate_switch_cost_some, if_pos h]
  · simp [calculate_switch_cost, energyIdx]
    norm_num

/-- Witness for `C5_calculate_switch_cost_range` at a concrete context. -/
theorem C5_calculate_switch_cost_range_witness :
    0 ≤ calculate_switch_cost none { project_id := 3, context_weight := 7 } ∧
    calculate_switch_cost none { project_id := 3, context_weight := 7 } ≤ 1 :=
  (C5_calculate_switch_cost_range.1 none { project_id := 3, context_weight := 7 }
    (by norm_num) (by norm_num))

/-- C6 counterexample: two pairs identical in every field except that one
`from`-context lists the `to`-project as related — but with equal context
weights (weight delta 0).  The discount multiplies the zero base term, so
both switch costs are 0 and the related pair is *not* strictly lower. -/
theorem C6_counterexample_equal_weights :
    ¬ (calculate_switch_cost
         (some { project_id := 1, context_weight := 5, related_projects := [2] })
         { project_id := 2, context_weight := 5 } <
       calculate_switch_cost
         (some { project_id := 1, context_weight := 5, related_projects := [] })
         { project_id := 2, context_weight := 5 }) := by
  have h1 : calculate_switch_cost
      (some { project_id := 1, context_weight := 5, related_projects := [2] })
      { project_id := 2, context_weight := 5 } = 0 := by
    simp [calculate_switch_cost]
  have h2 : calculate_switch_cost
      (some { project_id := 1, context_weight := 5, related_projects := [] })
      { project_id := 2, context_weight := 5 } = 0 := by
    simp [calculate_switch_cost]
  rw [h1, h2]
  exact lt_irrefl 0

/-- C6 (amended): for context weights in the model's declared [1,10] range
and a *nonzero* weight delta, a pair whose `to`-project is listed in the
`from`-context's `related_projects` costs strictly less than the otherwise
identical pair without the listing.  (With an equal-weight pair the discount
acts on a zero base term and both costs coincide, per the counterexample.) -/
theorem C6_related_project_discount_strict (fp : ProjectContext) (r2 : List Int)
    (tp : ProjectContext)
    (hw1 : 1 ≤ fp.context_weight) (hw2 : fp.context_weight ≤ 10)
    (hw3 : 1 ≤ tp.context_weight) (hw4 : tp.context_weight ≤ 10)
    (hne : fp.project_id ≠ tp.project_id)
    (hdelta : fp.context_weight ≠ tp.context_weight)
    (hrel : tp.project_id ∈ fp.related_projects)
    (hnrel : tp.project_id ∉ r2) :
    calculate_switch_cost (some fp) tp <
      calculate_switch_cost (some { fp with related_projects := r2 }) tp := by
  have hne2 : ({ fp with related_projects := r2 } : ProjectContext).project_id ≠
      tp.project_id := hne
  rw [calculate_switch_cost_some, calculate_switch_cost_some, if_neg hne,
    if_neg hne2]
  have hwork : switch_work_cost { fp with related_projects := r2 } tp =
      switch_work_cost fp tp := rfl
  have henergy : switch_energy_cost { fp with related_projects := r2 } tp =
      switch_energy_cost fp tp := rfl
  have htool : switch_tool_cost { fp with related_projects := r2 } tp =
      switch_tool_cost fp tp := rfl
  rw [hwork, henergy, htool]
  have hw0 := switch_work_cost_nonneg fp tp
  have he0 := switch_energy_cost_nonneg fp tp
  have ht0 := switch_tool_cost_nonneg fp tp
  have hwle := switch_work_cost_le fp tp
  have hele := switch_energy_cost_le fp tp
  have htle := switch_tool_cost_le fp tp
  set b0 : ℚ := |(fp.context_weight : ℚ) - (tp.context_weight : ℚ)| / 10 with hb0
  have hb0pos : 0 < b0 := by
    have : (fp.context_weight : ℚ) - (tp.context_weight : ℚ) ≠ 0 := by
      intro hz
      exact hdelta (by exact_mod_cast sub_eq_zero.mp hz)
    have := abs_pos.mpr this
    simp only [hb0]; linarith
  have hb0le : b0 ≤ 9/10 := by
    have ha : (1 : ℚ) ≤ (fp.context_weight : ℚ) := by exact_mod_cast hw1
    have hb : (fp.context_weight : ℚ) ≤ 10 := by exact_mod_cast hw2
    have hc : (1 : ℚ) ≤ (tp.context_weight : ℚ) := by exact_mod_cast hw3
    have hd : (tp.context_weight : ℚ) ≤ 10 := by exact_mod_cast hw4
    have h9 : |(fp.context_weight : ℚ) - (tp.context_weight : ℚ)| ≤ 9 :=
      abs_le.mpr ⟨by linarith, by linarith⟩
    simp only [hb0]; linarith
  have hbaseL : switch_base_cost fp tp =
      if fp.domain ≠ "" ∧ fp.domain = tp.domain
      then (b0 * (1/2)) * (7/10) else b0 * (1/2) := by
    unfold switch_base_cost
    dsimp only
    rw [if_pos hrel]
  have hbaseR : switch_base_cost { fp with related_projects := r2 } tp =
      if fp.domain ≠ "" ∧ fp.domain = tp.domain then b0 * (7/10) else b0 := by
    unfold switch_base_cost
    dsimp only
    rw [if_neg hnrel]
  rw [hbaseL, hbaseR]
  split_ifs with hdom
  · refine lt_of_le_of_lt (min_le_right _ _) (lt_min (by nlinarith) (by nlinarith))
  · refine lt_of_le_of_lt (min_le_right _ _) (lt_min (by nlinarith) (by nlinarith))

/-- Witness for `C6_related_project_discount_strict` at concrete contexts. -/
theorem C6_related_project_discount_strict_witness :
    calculate_switch_cost
        (some { project_id := 1, context_weight := 8, related_projects := [2] })
        { project_id := 2, context_weight := 5 } <
      calculate_switch_cost
        (some { project_id := 1, context_weight := 8, related_projects := [] })
        { project_id := 2, context_weight := 5 } := by
  exact C6_related_project_discount_strict
    { project_id := 1, context_weight := 8, related_projects := [2] } []
    { project_id := 2, context_weight := 5 }
    (by norm_num) (by norm_num) (by norm_num) (by norm_num)
    (by norm_num) (by norm_num) (by simp) (by simp)

/-- C4: the contextual pre-filter keeps exactly the tasks that (a) have their
project id in `only_projects` whenever that list is non-empty, (b) have their
project id outside `exclude_projects`, (c) are not done, and (d) when they
carry parsed metadata, have metadata energy ≤ the requested energy on the
LOW<MEDIUM<HIGH order (SOCIAL matching only SOCIAL) and metadata mode equal
to the requested mode unless the requested mode is ADMIN; tasks without
metadata pass stage (d) unconditionally. -/
theorem C4_context_filter_characterization (tasks : List Task)
    (options : FocusOptions) :
    context_filtered tasks options = tasks.filter (fun t =>
      (options.only_projects.isEmpty ||
        decide (t.raw_task.project_id ∈ options.only_projects)) &&
      !(decide (t.raw_task.project_id ∈ options.exclude_projects)) &&
      !t.raw_task.done &&
      t.metadata.all (fun md =>
        (if md.energy = .social ∨ options.energy = .social
         then decide (md.energy = options.energy)
         else decide (energyIdx md.energy ≤ energyIdx options.energy)) &&
        (decide (md.mode = options.mode) || decide (options.mode = .admin)))) := by
  have hoe : ∀ (l : List Int), l ≠ [] → l.isEmpty = false := by
    intro l hl
    cases l
    · exact absurd rfl hl
    · rfl
  unfold context_filtered
  dsimp only
  by_cases he : options.exclude_projects = []
  · rw [if_neg (by simp [he])]
    by_cases ho : options.only_projects = []
    · rw [if_neg (by simp [ho])]
      simp only [List.filter_filter]
      refine List.filter_congr fun t ht => ?_
      rcases hmd : t.metadata with _ | md <;>
        simp [energy_matches, mode_matches, hmd, ho, he, Bool.and_comm,
          Bool.and_assoc, Bool.and_left_comm]
    · rw [if_pos ho]
      simp only [List.filter_filter]
      refine List.filter_congr fun t ht => ?_
      rcases hmd : t.metadata with _ | md <;>
        simp [energy_matches, mode_matches, hmd, hoe _ ho, he, Bool.and_comm,
          Bool.and_assoc, Bool.and_left_comm]
  · rw [if_pos he]
    by_cases ho : options.only_projects = []
    · rw [if_neg (by simp [ho])]
      simp only [List.filter_filter]
      refine List.filter_congr fun t ht => ?_
      rcases hmd : t.metadata with _ | md <;>
        simp [energy_matches, mode_matches, hmd, ho, Bool.and_comm,
          Bool.and_assoc, Bool.and_left_comm]
    · rw [if_pos ho]
      simp only [List.filter_filter]
      refine List.filter_congr fun t ht => ?_
      rcases hmd : t.metadata with _ | md <;>
        simp [energy_matches, mode_matches, hmd, hoe _ ho, Bool.and_comm,
          Bool.and_assoc, Bool.and_left_comm]

/-! ## Stable descending sort lemmas -/

theorem sorted_insertionSort_key {α β : Type} [LinearOrder β] (key : α → β)
    (l : List α) :
    List.Sorted (fun a b => key b ≤ key a)
      (List.insertionSort (fun a b => key b ≤ key a) l) := by
  haveI : IsTotal α (fun a b => key b ≤ key a) := ⟨fun a b => le_total (key b) (key a)⟩
  haveI : IsTrans α (fun a b => key b ≤ key a) :=
    ⟨fun _ _ _ hab hbc => le_trans hbc hab⟩
  exact List.sorted_insertionSort _ l

theorem orderedInsert_key_filter {α β : Type} [LinearOrder β] (key : α → β)
    (a : α) (l : List α) (s : β) :
    (List.orderedInsert (fun x y => key y ≤ key x) a l).filter
        (fun x => key x == s) =
      if key a = s then a :: l.filter (fun x => key x == s)
      else l.filter (fun x => key x == s) := by
  induction l with
  | nil =>
    by_cases has : key a = s <;>
      simp [List.orderedInsert, List.filter_cons, has]
  | cons b t ih =>
    simp only [List.orderedInsert]
    by_cases hr : key b ≤ key a
    · rw [if_pos hr]
      by_cases has : key a = s <;> by_cases hbs : key b = s <;>
        simp [List.filter_cons, has, hbs]
    · rw [if_neg hr]
      have hab : key a < key b := lt_of_not_le hr
      by_cases has : key a = s
      · have hbs : ¬ key b = s := by
          intro hb
          rw [has, hb] at hab
          exact lt_irrefl _ hab
        simp [List.filter_cons, has, hbs, ih]
      · by_cases hbs : key b = s <;> simp [List.filter_cons, has, hbs, ih]

theorem insertionSort_key_filter {α β : Type} [LinearOrder β] (key : α → β)
    (l : List α) (s : β) :
    (List.insertionSort (fun a b => key b ≤ key a) l).filter
        (fun x => key x == s) =
      l.filter (fun x => key x == s) := by
  induction l with
  | nil => rfl
  | cons a t ih =>
    simp only [List.insertionSort]
    rw [orderedInsert_key_filter]
    by_cases has : key a = s <;> simp [List.filter_cons, has, ih]

/-! ## Heuristic-fallback lemmas -/

theorem mapM_validate_eq (f : Task → ℚ) (r : String) (l : List Task)
    (h : ∀ t ∈ l, 0 ≤ f t ∧ f t ≤ 1) :
    l.mapM (fun t => RankedTask.validate t (f t) r) =
      some (l.map (fun t => ⟨t, f t, r⟩)) := by
  induction l with
  | nil => rfl
  | cons a t ih =>
    have ha := h a (by simp)
    rw [List.mapM_cons, ih (fun x hx => h x (by simp [hx]))]
    simp [RankedTask.validate, if_pos ha]

theorem heuristic_fallback_eq (tasks : List Task) (options : FocusOptions)
    (h : ∀ t ∈ (sortByPriorityDesc tasks).take options.max_tasks,
      -5 ≤ t.raw_task.priority ∧ t.raw_task.priority ≤ 5) :
    heuristic_fallback tasks options =
      some
        { ranked_tasks :=
            ((sortByPriorityDesc tasks).take options.max_tasks).map
              (fun t => ⟨t, 1/2 + (t.raw_task.priority : ℚ) * (1/10),
                "Priority-based heuristic"⟩)
          reasoning := "Used heuristic fallback due to AI service unavailability"
          confidence := 6/10
          strategy := "heuristic_fallback"
          fallback := true } := by
  have hrange : ∀ t ∈ (sortByPriorityDesc tasks).take options.max_tasks,
      0 ≤ 1/2 + (t.raw_task.priority : ℚ) * (1/10) ∧
      1/2 + (t.raw_task.priority : ℚ) * (1/10) ≤ 1 := by
    intro t ht
    obtain ⟨h1, h2⟩ := h t ht
    have c1 : (-5 : ℚ) ≤ (t.raw_task.priority : ℚ) := by exact_mod_cast h1
    have c2 : (t.raw_task.priority : ℚ) ≤ 5 := by exact_mod_cast h2
    constructor <;> linarith
  unfold heuristic_fallback
  dsimp only
  rw [mapM_validate_eq (fun t => 1/2 + (t.raw_task.priority : ℚ) * (1/10))
    "Priority-based heuristic" _ hrange]
  dsimp only
  rw [DecisionResponse.validate,
    if_pos (by norm_num : (0:ℚ) ≤ 6/10 ∧ (6:ℚ)/10 ≤ 1)]

/-- C1 counterexample: a single actionable candidate with priority 6.  The
claim asserts the fallback *returns* a `DecisionResponse` whose score
`0.5 + 6*0.1 = 1.1` exceeds the declared [0,1] range; in fact the
`RankedTask` model validates the range at construction, the construction
raises, and `get_focus_tasks` propagates the error (modelled as `none`)
instead of returning any response. -/
theorem C1_counterexample_priority_six :
    get_focus_tasks (fun _ => none) none
      [{ identifier := "T-1",
         raw_task := { id := 1, priority := 6, project_id := 1 } }]
      {} = none := by
  have hval : RankedTask.validate
      { identifier := "T-1",
        raw_task := { id := 1, priority := 6, project_id := 1 } }
      (1/2 + ((6 : Int) : ℚ) * (1/10)) "Priority-based heuristic" = none := by
    rw [RankedTask.validate, if_neg]
    intro hc
    have := hc.2
    norm_num at this
  have hmap : List.mapM (fun t => RankedTask.validate t
      (1/2 + (t.raw_task.priority : ℚ) * (1/10)) "Priority-based heuristic")
      [({ identifier := "T-1",
          raw_task := { id := 1, priority := 6, project_id := 1 } } : Task)] =
      none := by
    rw [List.mapM_cons]
    rw [hval]
    rfl
  have hfb : heuristic_fallback
      [{ identifier := "T-1",
         raw_task := { id := 1, priority := 6, project_id := 1 } }] {} = none := by
    unfold heuristic_fallback
    dsimp only
    rw [show sortByPriorityDesc
        [{ identifier := "T-1",
           raw_task := { id := 1, priority := 6, project_id := 1 } }] =
        [{ identifier := "T-1",
           raw_task := { id := 1, priority := 6, project_id := 1 } }] from rfl]
    rw [show List.take (10 : Nat)
        [({ identifier := "T-1",
            raw_task := { id := 1, priority := 6, project_id := 1 } } : Task)] =
        [{ identifier := "T-1",
           raw_task := { id := 1, priority := 6, project_id := 1 } }] from rfl]
    rw [hmap]
  unfold get_focus_tasks
  dsimp only
  rw [if_neg (by simp [apply_filters, context_filtered, filter_blocked_tasks,
    RawTask.is_blocked, RawTask.rel])]
  exact hfb

/-- C1 (amended): whenever the oracle call fails or its response does not
parse and the actionable candidates are non-empty, `get_focus_tasks` falls
back to the deterministic heuristic: candidates stably sorted by raw priority
descending, truncated to `max_tasks`, score `0.5 + priority*0.1`, fixed
reasoning, strategy `"heuristic_fallback"`, `fallback = true`,
confidence 0.6 — *provided* each selected candidate's priority lies in
[-5, 5], so that every score passes the `RankedTask` model's declared [0,1]
validation (for a selected priority outside that range the construction
raises and no response is returned, per the counterexample).  The last three
conjuncts pin down the sort: it is descending in priority, a permutation,
and stable (per-priority slices are preserved verbatim). -/
theorem C1_fallback_response :
    (∀ (decode : List Char → Option JVal) (oracle_response : Option (List Char))
       (tasks : List Task) (options : FocusOptions),
      (apply_filters tasks options).1 ≠ [] →
      (oracle_response = none ∨ ∃ txt, oracle_response = some txt ∧
        parse_ranking_response decode txt (apply_filters tasks options).1 = none) →
      (∀ t ∈ (sortByPriorityDesc (apply_filters tasks options).1).take
          options.max_tasks, -5 ≤ t.raw_task.priority ∧ t.raw_task.priority ≤ 5) →
      get_focus_tasks decode oracle_response tasks options =
        some
          { ranked_tasks :=
              ((sortByPriorityDesc (apply_filters tasks options).1).take
                  options.max_tasks).map
                (fun t => ⟨t, 1/2 + (t.raw_task.priority : ℚ) * (1/10),
                  "Priority-based heuristic"⟩)
            reasoning := "Used heuristic fallback due to AI service unavailability"
            confidence := 6/10
            strategy := "heuristic_fallback"
            fallback := true }) ∧
    (∀ l : List Task,
      List.Sorted (fun a b => b.raw_task.priority ≤ a.raw_task.priority)
        (sortByPriorityDesc l)) ∧
    (∀ l : List Task, (sortByPriorityDesc l).Perm l) ∧
    (∀ (l : List Task) (p : Int),
      (sortByPriorityDesc l).filter (fun t => t.raw_task.priority == p) =
        l.filter (fun t => t.raw_task.priority == p)) := by
  refine ⟨?_, ?_, ?_, ?_⟩
  · intro decode oracle_response tasks options hne hfail hpr
    unfold get_focus_tasks
    dsimp only
    rw [if_neg hne]
    rcases hfail with h | ⟨txt, htxt, hparse⟩
    · rw [h]
      exact heuristic_fallback_eq _ _ hpr
    · rw [htxt]
      dsimp only
      rw [hparse]
      exact heuristic_fallback_eq _ _ hpr
  · exact fun l => sorted_insertionSort_key (fun t => t.raw_task.priority) l
  · exact fun l => List.perm_insertionSort _ l
  · exact fun l p => insertionSort_key_filter (fun t => t.raw_task.priority) l p

/-- Witness for `C1_fallback_response` on a concrete priority-3 candidate. -/
theorem C1_fallback_response_witness :
    get_focus_tasks (fun _ => none) none
      [{ identifier := "T-2",
         raw_task := { id := 2, priority := 3, project_id := 1 } }]
      {} =
      some
        { ranked_tasks :=
            [⟨{ identifier := "T-2",
                raw_task := { id := 2, priority := 3, project_id := 1 } },
              1/2 + ((3 : Int) : ℚ) * (1/10), "Priority-based heuristic"⟩]
          reasoning := "Used heuristic fallback due to AI service unavailability"
          confidence := 6/10
          strategy := "heuristic_fallback"
          fallback := true } := by
  exact C1_fallback_response.1 (fun _ => none) none _ {}
    (by simp [apply_filters, context_filtered, filter_blocked_tasks,
      RawTask.is_blocked, RawTask.rel])
    (Or.inl rfl)
    (by
      intro t ht
      simp [apply_filters, context_filtered, filter_blocked_tasks,
        RawTask.is_blocked, RawTask.rel, sortByPriorityDesc] at ht
      rw [ht]
      norm_num)

/-! ## Cleanup / parsing lemmas -/

theorem dropWhile_append_all {α : Type} (p : α → Bool) (w r : List α)
    (h : ∀ c ∈ w, p c = true) :
    (w ++ r).dropWhile p = r.dropWhile p := by
  induction w with
  | nil => rfl
  | cons a t ih =>
    simp [List.dropWhile_cons, h a (by simp),
      ih (fun c hc => h c (by simp [hc]))]

theorem pyStrip_eq_self_of_nonspace (l : List Char)
    (h1 : ∀ c, l.head? = some c → isPySpace c = false)
    (h2 : ∀ c, l.getLast? = some c → isPySpace c = false) : pyStrip l = l := by
  have hd : l.dropWhile isPySpace = l := by
    cases l with
    | nil => rfl
    | cons a t =>
      rw [List.dropWhile_cons, h1 a rfl]
      simp
  rw [pyStrip, hd]
  have hr : l.reverse.dropWhile isPySpace = l.reverse := by
    cases hrev : l.reverse with
    | nil => rfl
    | cons a t =>
      have hla : l.getLast? = some a := by
        rw [← List.head?_reverse, hrev]
        rfl
      rw [List.dropWhile_cons, h2 a hla]
      simp
  rw [hr, List.reverse_reverse]

theorem cleanup_response_fenced (w t : List Char)
    (hw : ∀ c ∈ w, isWordChar c = true) (ht : pyStrip t = t) :
    cleanup_response (fence ++ (w ++ '\n' :: (t ++ '\n' :: fence))) = t := by
  have hfc : fence = ['\x60', '\x60', '\x60'] := rfl
  have hstrip : pyStrip (fence ++ (w ++ '\n' :: (t ++ '\n' :: fence))) =
      fence ++ (w ++ '\n' :: (t ++ '\n' :: fence)) := by
    refine pyStrip_eq_self_of_nonspace _ ?_ ?_
    · intro c hc
      rw [hfc] at hc
      simp only [List.cons_append, List.head?_cons, Option.some.injEq] at hc
      rw [← hc]
      decide
    · intro c hc
      rw [List.getLast?_append] at hc
      have h2 : ('\n' :: (t ++ '\n' :: fence)).getLast? = some '\x60' := by
        have : '\n' :: (t ++ '\n' :: fence) =
            ('\n' :: t ++ ['\n', '\x60', '\x60']) ++ ['\x60'] := by
          simp [hfc]
        rw [this, List.getLast?_concat]
      rw [List.getLast?_append, h2] at hc
      simp only [Option.or_some, Option.some.injEq] at hc
      rw [← hc]
      decide
  have hpre : fence.isPrefixOf (fence ++ (w ++ '\n' :: (t ++ '\n' :: fence))) =
      true := by
    rw [List.isPrefixOf_iff_prefix]
    exact List.prefix_append _ _
  have hdrop : (fence ++ (w ++ '\n' :: (t ++ '\n' :: fence))).drop 3 =
      w ++ '\n' :: (t ++ '\n' :: fence) := by
    rw [show (3 : Nat) = fence.length from rfl]
    exact List.drop_left _ _
  have hdw : (('\n' :: (t ++ '\n' :: fence)).dropWhile isWordChar) =
      '\n' :: (t ++ '\n' :: fence) := by
    rw [List.dropWhile_cons, show isWordChar '\n' = false from by decide]
    simp
  have hsplit : t ++ '\n' :: fence = (t ++ ['\n']) ++ fence := by simp
  have hsuf : fence.isSuffixOf (t ++ '\n' :: fence) = true := by
    rw [List.isSuffixOf_iff_suffix, hsplit]
    exact List.suffix_append _ _
  have hlen : (t ++ '\n' :: fence).length - 3 = (t ++ ['\n']).length := by
    simp [hfc]
  have htake : (t ++ '\n' :: fence).take ((t ++ '\n' :: fence).length - 3) =
      t ++ ['\n'] := by
    rw [hlen, hsplit, List.take_left]
  have htrail : dropTrailNl (t ++ ['\n']) = t := by
    rw [dropTrailNl, List.getLast?_concat, if_pos rfl, List.dropLast_concat]
  unfold cleanup_response
  dsimp only
  rw [hstrip, hpre]
  simp only [if_true]
  rw [hdrop, dropWhile_append_all _ _ _ hw, hdw]
  rw [show dropLeadNl ('\n' :: (t ++ '\n' :: fence)) = t ++ '\n' :: fence
    from rfl]
  rw [hsuf]
  simp only [if_true]
  rw [htake, htrail]

/-- The cleanup on an already-stripped text with no leading fence is the
identity. -/
theorem cleanup_response_plain (t : List Char) (ht : pyStrip t = t)
    (hnp : fence.isPrefixOf t = false) : cleanup_response t = t := by
  unfold cleanup_response
  dsimp only
  rw [ht, hnp]
  simp

theorem mapM_option_length {α β : Type} (f : α → Option β) :
    ∀ (l : List α) (r : List β), l.mapM f = some r → r.length = l.length := by
  intro l
  induction l with
  | nil =>
    intro r h
    simp only [List.mapM_nil, pure, Option.some.injEq] at h
    rw [← h]
    rfl
  | cons a tl ih =>
    intro r h
    rw [List.mapM_cons] at h
    rcases hfa : f a with _ | x <;> rw [hfa] at h
    · exact absurd h (by simp [Bind.bind])
    · rcases hm : tl.mapM f with _ | xs <;> rw [hm] at h
      · exact absurd h (by simp [Bind.bind])
      · have h2 : x :: xs = r := Option.some.inj h
        rw [← h2]
        simp [ih xs hm]

theorem mapM_option_mem {α β : Type} (f : α → Option β) :
    ∀ (l : List α) (r : List β), l.mapM f = some r →
      ∀ y ∈ r, ∃ x ∈ l, f x = some y := by
  intro l
  induction l with
  | nil =>
    intro r h y hy
    simp only [List.mapM_nil, pure, Option.some.injEq] at h
    rw [← h] at hy
    exact absurd hy (by simp)
  | cons a tl ih =>
    intro r h y hy
    rw [List.mapM_cons] at h
    rcases hfa : f a with _ | x <;> rw [hfa] at h
    · exact absurd h (by simp [Bind.bind])
    · rcases hm : tl.mapM f with _ | xs <;> rw [hm] at h
      · exact absurd h (by simp [Bind.bind])
      · have h2 : x :: xs = r := Option.some.inj h
        rw [← h2] at hy
        rcases List.mem_cons.mp hy with hy1 | hy2
        · exact ⟨a, by simp, by rw [hfa, hy1]⟩
        · obtain ⟨x₂, hx₂, hfx₂⟩ := ih xs hm y hy2
          exact ⟨x₂, by simp [hx₂], hfx₂⟩

theorem RankedTask_validate_some (t : Task) (s : ℚ) (r : String)
    (rt : RankedTask) (h : RankedTask.validate t s r = some rt) :
    0 ≤ rt.score ∧ rt.score ≤ 1 := by
  rw [RankedTask.validate] at h
  split_ifs at h with hc
  cases h
  exact hc

theorem DecisionResponse_validate_some (rk : List RankedTask) (rs : String)
    (c : ℚ) (st : String) (fb : Bool) (resp : DecisionResponse)
    (h : DecisionResponse.validate rk rs c st fb = some resp) :
    resp = ⟨rk, rs, c, st, fb⟩ ∧ 0 ≤ c ∧ c ≤ 1 := by
  rw [DecisionResponse.validate] at h
  split_ifs at h with hc
  cases h
  exact ⟨rfl, hc⟩

theorem build_ranked_item_kept (tasks : List Task) (item : JVal)
    (rt : RankedTask) (h : build_ranked_item tasks item = some (some rt)) :
    0 ≤ rt.score ∧ rt.score ≤ 1 := by
  cases item with
  | jobj o =>
    unfold build_ranked_item at h
    dsimp only at h
    rcases hq : jNum? (jGetD o "index" (JVal.jint 0)) with _ | q <;>
      rw [hq] at h
    · simp at h
    · dsimp only at h
      by_cases hr : 0 ≤ q ∧ q < (tasks.length : ℚ)
      · rw [if_pos hr] at h
        rcases hi : jIdx? (jGetD o "index" (JVal.jint 0)) with _ | i <;>
          rw [hi] at h
        · simp at h
        · dsimp only at h
          rcases htk : tasks[i.toNat]? with _ | tk <;> rw [htk] at h
          · simp at h
          · dsimp only at h
            rcases hs : jNum? (jGetD o "score" (JVal.jnum (1/2))) with _ | s <;>
              rw [hs] at h
            · simp at h
            · dsimp only at h
              rcases hrs : jStr? (jGetD o "reasoning" (JVal.jstr "")) with _ | rs <;>
                rw [hrs] at h
              · simp at h
              · dsimp only at h
                rcases hv : RankedTask.validate tk (min 1 (max 0 s)) rs
                  with _ | rt₂ <;> rw [hv] at h
                · simp at h
                · have h2 : rt₂ = rt := Option.some.inj (Option.some.inj h)
                  cases h2
                  exact RankedTask_validate_some _ _ _ _ hv
      · rw [if_neg hr] at h
        simp at h
  | jint i => simp [build_ranked_item] at h
  | jnum q => simp [build_ranked_item] at h
  | jstr s => simp [build_ranked_item] at h
  | jbool b => simp [build_ranked_item] at h
  | jnull => simp [build_ranked_item] at h
  | jarr l => simp [build_ranked_item] at h

/-- An out-of-range index is dropped silently (the entry yields no ranked
task and no error). -/
theorem build_ranked_item_out_of_range (tasks : List Task)
    (o : List (String × JVal)) (q : ℚ)
    (hq : jNum? (jGetD o "index" (.jint 0)) = some q)
    (hrange : ¬ (0 ≤ q ∧ q < (tasks.length : ℚ))) :
    build_ranked_item tasks (.jobj o) = some none := by
  unfold build_ranked_item
  dsimp only
  rw [hq]
  dsimp only
  rw [if_neg hrange]

theorem build_decision_some_props (data : JVal) (tasks : List Task)
    (resp : DecisionResponse) (h : build_decision data tasks = some resp) :
    resp.ranked_tasks.length ≤ 10 ∧
    List.Sorted (fun a b : RankedTask => b.score ≤ a.score) resp.ranked_tasks ∧
    (∀ rt ∈ resp.ranked_tasks, 0 ≤ rt.score ∧ rt.score ≤ 1) ∧
    0 ≤ resp.confidence ∧ resp.confidence ≤ 1 := by
  cases data with
  | jobj o =>
    unfold build_decision at h
    dsimp only at h
    rcases ha : jArr? (jGetD o "ranked_tasks" (JVal.jarr [])) with _ | items <;>
      rw [ha] at h
    · simp at h
    · dsimp only at h
      rcases hm : (items.take 10).mapM (build_ranked_item tasks)
        with _ | picked <;> rw [hm] at h
      · simp at h
      · dsimp only at h
        rcases hrs : jStr? (jGetD o "overall_reasoning"
            (JVal.jstr "AI-ranked tasks")) with _ | reasoning <;> rw [hrs] at h
        · simp at h
        · dsimp only at h
          rcases hc : jNum? (jGetD o "confidence" (JVal.jnum (7/10)))
            with _ | c <;> rw [hc] at h
          · simp at h
          · dsimp only at h
            obtain ⟨hresp, hc0, hc1⟩ :=
              DecisionResponse_validate_some _ _ _ _ _ _ h
            subst hresp
            have hperm := List.perm_insertionSort
              (fun a b : RankedTask => b.score ≤ a.score) (picked.filterMap id)
            refine ⟨?_, ?_, ?_, hc0, hc1⟩
            · show (sortByScoreDesc (picked.filterMap id)).length ≤ 10
              rw [sortByScoreDesc, hperm.length_eq]
              calc (picked.filterMap id).length ≤ picked.length :=
                    List.length_filterMap_le _ _
                _ = (items.take 10).length := mapM_option_length _ _ _ hm
                _ ≤ 10 := by
                    rw [List.length_take]
                    exact min_le_left _ _
            · exact sorted_insertionSort_key (fun rt : RankedTask => rt.score) _
            · intro rt hrt
              show 0 ≤ rt.score ∧ rt.score ≤ 1
              have h1 : rt ∈ picked.filterMap id := by
                rw [sortByScoreDesc] at hrt
                exact hperm.mem_iff.mp hrt
              obtain ⟨a, hap, hai⟩ := List.mem_filterMap.mp h1
              have h2 : a = some rt := hai
              subst h2
              obtain ⟨item, hit, hbi⟩ := mapM_option_mem _ _ _ hm _ hap
              exact build_ranked_item_kept tasks item rt hbi
  | jint i => simp [build_decision] at h
  | jnum q => simp [build_decision] at h
  | jstr s => simp [build_decision] at h
  | jbool b => simp [build_decision] at h
  | jnull => simp [build_decision] at h
  | jarr l => simp [build_decision] at h

/-- C3: (1) a ranking response wrapped in a code fence (with a word-character
language tag) parses to exactly the same `DecisionResponse` as the stripped
unwrapped text; (2) an entry with a numeric index outside [0, #candidates)
is dropped silently (it contributes no ranked task and raises no error);
(3) any successfully parsed response has at most 10 ranked tasks, sorted by
score descending, with every score and the confidence clamped into [0,1];
(4)–(5) the score sort is a stable permutation: it reorders nothing within a
score class. -/
theorem C3_parse_ranking_defensive :
    (∀ (decode : List Char → Option JVal) (tasks : List Task) (w t : List Char),
      (∀ c ∈ w, isWordChar c = true) → pyStrip t = t →
      fence.isPrefixOf t = false →
      parse_ranking_response decode
          (fence ++ (w ++ '\n' :: (t ++ '\n' :: fence))) tasks =
        parse_ranking_response decode t tasks) ∧
    (∀ (tasks : List Task) (o : List (String × JVal)) (q : ℚ),
      jNum? (jGetD o "index" (.jint 0)) = some q →
      ¬ (0 ≤ q ∧ q < (tasks.length : ℚ)) →
      build_ranked_item tasks (.jobj o) = some none) ∧
    (∀ (data : JVal) (tasks : List Task) (resp : DecisionResponse),
      build_decision data tasks = some resp →
      resp.ranked_tasks.length ≤ 10 ∧
      List.Sorted (fun a b : RankedTask => b.score ≤ a.score) resp.ranked_tasks ∧
      (∀ rt ∈ resp.ranked_tasks, 0 ≤ rt.score ∧ rt.score ≤ 1) ∧
      0 ≤ resp.confidence ∧ resp.confidence ≤ 1) ∧
    (∀ l : List RankedTask, (sortByScoreDesc l).Perm l) ∧
    (∀ (l : List RankedTask) (s : ℚ),
      (sortByScoreDesc l).filter (fun rt => rt.score == s) =
        l.filter (fun rt => rt.score == s)) := by
  refine ⟨?_, ?_, build_decision_some_props, ?_, ?_⟩
  · intro decode tasks w t hw ht hnp
    unfold parse_ranking_response
    rw [cleanup_response_fenced w t hw ht, cleanup_response_plain t ht hnp]
  · intro tasks o q hq hrange
    exact build_ranked_item_out_of_range tasks o q hq hrange
  · exact fun l => List.perm_insertionSort _ l
  · exact fun l s => insertionSort_key_filter (fun rt : RankedTask => rt.score) l s

/-- Witness for `C3_parse_ranking_defensive` on a concrete fenced text. -/
theorem C3_parse_ranking_defensive_witness :
    parse_ranking_response (fun _ => none)
        (fence ++ ("json".data ++ '\n' :: (['\x7b', '\x7d'] ++ '\n' :: fence)))
        [] =
      parse_ranking_response (fun _ => none) ['\x7b', '\x7d'] [] := by
  exact C3_parse_ranking_defensive.1 (fun _ => none) [] "json".data
    ['\x7b', '\x7d'] (by decide) (by decide) (by decide)

/-! ## Infix lemmas for the retry-prompt content -/

theorem infix_append_of_infix_left {α : Type} {x m : List α} (l : List α)
    (h : x <:+: m) : x <:+: l ++ m := by
  obtain ⟨s, t, hst⟩ := h
  exact ⟨l ++ s, t, by rw [← hst]; simp⟩

theorem infix_append_of_infix_right {α : Type} {x m : List α} (r : List α)
    (h : x <:+: m) : x <:+: m ++ r := by
  obtain ⟨s, t, hst⟩ := h
  exact ⟨s, t ++ r, by rw [← hst]; simp⟩

theorem foldl_prefix_append :
    ∀ (t : List String) (acc : String),
      acc.data <+: (t.foldl (· ++ ·) acc).data := by
  intro t
  induction t with
  | nil => intro acc; exact List.prefix_refl _
  | cons b tl ih =>
    intro acc
    refine List.IsPrefix.trans ?_ (ih (acc ++ b))
    exact ⟨b.data, by simp⟩

theorem mem_foldl_append_infix :
    ∀ (t : List String) (acc x : String),
      x ∈ t → x.data <:+: (t.foldl (· ++ ·) acc).data := by
  intro t
  induction t with
  | nil =>
    intro acc x hx
    exact absurd hx (by simp)
  | cons b tl ih =>
    intro acc x hx
    rcases List.mem_cons.mp hx with h | h
    · subst h
      refine List.IsInfix.trans ?_ (foldl_prefix_append tl (acc ++ x)).isInfix
      exact ⟨acc.data, [], by simp⟩
    · exact ih (acc ++ b) x h

theorem mem_join_infix (l : List String) (x : String) (hx : x ∈ l) :
    x.data <:+: (String.join l).data :=
  mem_foldl_append_infix l "" x hx

/-- Every prior attempt's filter text and error message appear verbatim in
the retry prompt. -/
theorem filter_prompt_carries_errors (req : String) (errs : List Attempt)
    (a : Attempt) (ha : a ∈ errs) :
    a.filter.data <:+: (filter_prompt req errs).data ∧
    a.error.data <:+: (filter_prompt req errs).data := by
  have hne : errs ≠ [] := by
    intro h
    rw [h] at ha
    exact absurd ha (by simp)
  have hmem : a ∈ (errs.enum.map Prod.snd) := by
    rw [List.enum_map_snd]
    exact ha
  obtain ⟨p, hp, hpa⟩ := List.mem_map.mp hmem
  have hline : (fun p : Nat × Attempt =>
      toString (p.1 + 1) ++ ". Filter: " ++ p.2.filter ++ " -> Error: " ++
        p.2.error ++ "\n") p ∈
      errs.enum.map (fun p =>
        toString (p.1 + 1) ++ ". Filter: " ++ p.2.filter ++ " -> Error: " ++
          p.2.error ++ "\n") := List.mem_map_of_mem _ hp
  have hjoin := mem_join_infix _ _ hline
  have hec : (String.join (errs.enum.map (fun p =>
      toString (p.1 + 1) ++ ". Filter: " ++ p.2.filter ++ " -> Error: " ++
        p.2.error ++ "\n"))).data <:+: (error_context errs).data := by
    rw [error_context, if_neg hne]
    exact ⟨"\n\nPREVIOUS ATTEMPTS FAILED:\n".data,
      "\nPlease generate a CORRECTED filter avoiding these errors.".data,
      by simp only [String.data_append, List.append_assoc]⟩
  have hprompt : (error_context errs).data <:+: (filter_prompt req errs).data := by
    refine ⟨("Convert this natural language request to a Vikunja filter expression.\n\nRequest: "
        ++ req ++
        "\n\nVikunja filter syntax:\n- done = false (incomplete tasks)\n- priority >= 3 (high priority)\n- project_id = 5 (specific project)\n- Use && for AND, || for OR\n- String values need quotes: title ~ \"keyword\"\n- Date filters: due_date < now (overdue tasks)\n").data,
      "\n\nReturn ONLY the filter expression, nothing else. No markdown, no explanation.".data,
      ?_⟩
    simp only [filter_prompt, String.data_append, List.append_assoc]
  constructor
  · have h1 : a.filter.data <:+: ((fun p : Nat × Attempt =>
        toString (p.1 + 1) ++ ". Filter: " ++ p.2.filter ++ " -> Error: " ++
          p.2.error ++ "\n") p).data := by
      rw [← hpa]
      exact ⟨(toString (p.1 + 1) ++ ". Filter: ").data,
        (" -> Error: " ++ p.2.error ++ "\n").data,
        by simp only [String.data_append, List.append_assoc]⟩
    exact ((h1.trans hjoin).trans hec).trans hprompt
  · have h1 : a.error.data <:+: ((fun p : Nat × Attempt =>
        toString (p.1 + 1) ++ ". Filter: " ++ p.2.filter ++ " -> Error: " ++
          p.2.error ++ "\n") p).data := by
      rw [← hpa]
      exact ⟨(toString (p.1 + 1) ++ ". Filter: " ++ p.2.filter ++ " -> Error: ").data,
        "\n".data, by simp only [String.data_append, List.append_assoc]⟩
    exact ((h1.trans hjoin).trans hec).trans hprompt

/-- C2: the natural-language filter loop (i) succeeds immediately with no
retry fields when the first attempt executes, (ii) after k ∈ {1,2} failures
reports `retry_attempts = k` together with exactly the k prior
(filter, error) pairs and executes/reports the oracle-derived filter of the
final attempt, (iii) after 3 failures raises a single aggregated error
carrying all 3 attempted filters with their errors, `total_attempts = 3` and
a remediation suggestion, (iv) never reports more than 2 retries (at most 3
total attempts), and (v) each retry prompt carries every prior attempt's
filter text and error message verbatim.  Throughout, the executed and
reported filters are exactly `attempt_filter` — the cleaned oracle answer
(plus the project clause) — never a substituted default. -/
theorem C2_filter_translation_retry :
    (∀ (oracle : String → Option String)
       (execF : String → Except String (List RawTask))
       (req : String) (pid : Option Int) (limit : Nat) (ts : List RawTask),
      execF (attempt_filter oracle req pid []) = .ok ts →
      get_filtered_tasks_nl oracle execF req pid limit =
        .ok { message := "Filtered tasks retrieved successfully"
              summary := { total_tasks := (ts.take limit).length
                           filter_type := "natural_language"
                           filter_used := attempt_filter oracle req pid []
                           retry_attempts := none
                           previous_errors := none }
              tasks := ts.take limit }) ∧
    (∀ oracle execF req pid limit (e0 : String) (ts : List RawTask),
      execF (attempt_filter oracle req pid []) = .error e0 →
      execF (attempt_filter oracle req pid
        [⟨attempt_filter oracle req pid [], e0⟩]) = .ok ts →
      get_filtered_tasks_nl oracle execF req pid limit =
        .ok { message := "Filtered tasks retrieved successfully"
              summary := { total_tasks := (ts.take limit).length
                           filter_type := "natural_language"
                           filter_used := attempt_filter oracle req pid
                             [⟨attempt_filter oracle req pid [], e0⟩]
                           retry_attempts := some 1
                           previous_errors :=
                             some [⟨attempt_filter oracle req pid [], e0⟩] }
              tasks := ts.take limit }) ∧
    (∀ oracle execF req pid limit (e0 e1 : String) (ts : List RawTask),
      execF (attempt_filter oracle req pid []) = .error e0 →
      execF (attempt_filter oracle req pid
        [⟨attempt_filter oracle req pid [], e0⟩]) = .error e1 →
      execF (attempt_filter oracle req pid
        [⟨attempt_filter oracle req pid [], e0⟩,
         ⟨attempt_filter oracle req pid
           [⟨attempt_filter oracle req pid [], e0⟩], e1⟩]) = .ok ts →
      get_filtered_tasks_nl oracle execF req pid limit =
        .ok { message := "Filtered tasks retrieved successfully"
              summary := { total_tasks := (ts.take limit).length
                           filter_type := "natural_language"
                           filter_used := attempt_filter oracle req pid
                             [⟨attempt_filter oracle req pid [], e0⟩,
                              ⟨attempt_filter oracle req pid
                                [⟨attempt_filter oracle req pid [], e0⟩], e1⟩]
                           retry_attempts := some 2
                           previous_errors :=
                             some [⟨attempt_filter oracle req pid [], e0⟩,
                               ⟨attempt_filter oracle req pid
                                 [⟨attempt_filter oracle req pid [], e0⟩], e1⟩] }
              tasks := ts.take limit }) ∧
    (∀ oracle execF req pid limit (e0 e1 e2 : String),
      execF (attempt_filter oracle req pid []) = .error e0 →
      execF (attempt_filter oracle req pid
        [⟨attempt_filter oracle req pid [], e0⟩]) = .error e1 →
      execF (attempt_filter oracle req pid
        [⟨attempt_filter oracle req pid [], e0⟩,
         ⟨attempt_filter oracle req pid
           [⟨attempt_filter oracle req pid [], e0⟩], e1⟩]) = .error e2 →
      get_filtered_tasks_nl oracle execF req pid limit =
        .error
          { error := "Failed to generate valid filter after maximum retries"
            original_request := req
            total_attempts := 3
            attempts :=
              [⟨attempt_filter oracle req pid [], e0⟩,
               ⟨attempt_filter oracle req pid
                 [⟨attempt_filter oracle req pid [], e0⟩], e1⟩,
               ⟨attempt_filter oracle req pid
                 [⟨attempt_filter oracle req pid [], e0⟩,
                  ⟨attempt_filter oracle req pid
                    [⟨attempt_filter oracle req pid [], e0⟩], e1⟩], e2⟩]
            suggestion := "Try rephrasing your request or use a direct filter expression. Examples: \x27done = false\x27, \x27priority >= 3\x27, \x27project_id = 5\x27" }) ∧
    (∀ oracle execF req pid limit (resp : FilterResponse),
      get_filtered_tasks_nl oracle execF req pid limit = .ok resp →
      resp.summary.retry_attempts = none ∨
      resp.summary.retry_attempts = some 1 ∨
      resp.summary.retry_attempts = some 2) ∧
    (∀ (req : String) (errs : List Attempt), ∀ a ∈ errs,
      a.filter.data <:+: (filter_prompt req errs).data ∧
      a.error.data <:+: (filter_prompt req errs).data) := by
  have step : ∀ oracle execF req pid limit (n : Nat) (attempts : List Attempt),
      nl_filter_loop oracle execF req pid limit (n + 1) attempts =
        match execF (attempt_filter oracle req pid attempts) with
        | .ok raw_tasks =>
          .ok { message := "Filtered tasks retrieved successfully"
                summary := { total_tasks := (raw_tasks.take limit).length
                             filter_type := "natural_language"
                             filter_used := attempt_filter oracle req pid attempts
                             retry_attempts :=
                               if attempts = [] then none else some attempts.length
                             previous_errors :=
                               if attempts = [] then none else some attempts }
                tasks := raw_tasks.take limit }
        | .error e =>
          nl_filter_loop oracle execF req pid limit n
            (attempts ++ [⟨attempt_filter oracle req pid attempts, e⟩]) := by
    intro oracle execF req pid limit n attempts
    rfl
  refine ⟨?_, ?_, ?_, ?_, ?_, ?_⟩
  · intro oracle execF req pid limit ts h0
    rw [get_filtered_tasks_nl, show (3 : Nat) = 2 + 1 from rfl, step, h0]
    simp
  · intro oracle execF req pid limit e0 ts h0 h1
    rw [get_filtered_tasks_nl, show (3 : Nat) = 2 + 1 from rfl, step, h0]
    dsimp only [List.nil_append]
    rw [show (2 : Nat) = 1 + 1 from rfl, step, h1]
    simp
  · intro oracle execF req pid limit e0 e1 ts h0 h1 h2
    rw [get_filtered_tasks_nl, show (3 : Nat) = 2 + 1 from rfl, step, h0]
    dsimp only [List.nil_append]
    rw [show (2 : Nat) = 1 + 1 from rfl, step, h1]
    dsimp only [List.cons_append, List.nil_append]
    rw [show (1 : Nat) = 0 + 1 from rfl, step, h2]
    simp
  · intro oracle execF req pid limit e0 e1 e2 h0 h1 h2
    rw [get_filtered_tasks_nl, show (3 : Nat) = 2 + 1 from rfl, step, h0]
    dsimp only [List.nil_append]
    rw [show (2 : Nat) = 1 + 1 from rfl, step, h1]
    dsimp only [List.cons_append, List.nil_append]
    rw [show (1 : Nat) = 0 + 1 from rfl, step, h2]
    dsimp only [List.cons_append, List.nil_append]
    rfl
  · intro oracle execF req pid limit resp h
    rw [get_filtered_tasks_nl, show (3 : Nat) = 2 + 1 from rfl, step] at h
    rcases h0 : execF (attempt_filter oracle req pid []) with e0 | ts <;>
      rw [h0] at h <;> dsimp only [List.nil_append] at h
    · rw [show (2 : Nat) = 1 + 1 from rfl, step] at h
      rcases h1 : execF (attempt_filter oracle req pid
          [⟨attempt_filter oracle req pid [], e0⟩]) with e1 | ts <;>
        rw [h1] at h <;> dsimp only [List.cons_append, List.nil_append] at h
      · rw [show (1 : Nat) = 0 + 1 from rfl, step] at h
        rcases h2 : execF (attempt_filter oracle req pid
            [⟨attempt_filter oracle req pid [], e0⟩,
             ⟨attempt_filter oracle req pid
               [⟨attempt_filter oracle req pid [], e0⟩], e1⟩]) with e2 | ts <;>
          rw [h2] at h <;> dsimp only [List.cons_append, List.nil_append] at h
        · exact absurd h (by simp [nl_filter_loop])
        · have hr : resp.summary.retry_attempts = some 2 := by
            have h3 := Except.ok.inj h
            rw [← h3]
            rfl
          exact Or.inr (Or.inr hr)
      · have hr : resp.summary.retry_attempts = some 1 := by
          have h3 := Except.ok.inj h
          rw [← h3]
          rfl
        exact Or.inr (Or.inl hr)
    · have hr : resp.summary.retry_attempts = none := by
        have h3 := Except.ok.inj h
        rw [← h3]
        rfl
      exact Or.inl hr
  · exact filter_prompt_carries_errors

/-- Witness for `C2_filter_translation_retry`: a concrete oracle/executor
where every attempt fails, exercising the aggregated-error branch. -/
theorem C2_filter_translation_retry_witness :
    get_filtered_tasks_nl (fun _ => some "done = false")
      (fun f => if f = "done = false" then .error "boom" else .ok [])
      "give me tasks" none 5 =
      .error
        { error := "Failed to generate valid filter after maximum retries"
          original_request := "give me tasks"
          total_attempts := 3
          attempts :=
            [⟨attempt_filter (fun _ => some "done = false") "give me tasks"
                none [], "boom"⟩,
             ⟨attempt_filter (fun _ => some "done = false") "give me tasks"
                none
                [⟨attempt_filter (fun _ => some "done = false") "give me tasks"
                    none [], "boom"⟩], "boom"⟩,
             ⟨attempt_filter (fun _ => some "done = false") "give me tasks"
                none
                [⟨attempt_filter (fun _ => some "done = false") "give me tasks"
                    none [], "boom"⟩,
                 ⟨attempt_filter (fun _ => some "done = false") "give me tasks"
                    none
                    [⟨attempt_filter (fun _ => some "done = false")
                        "give me tasks" none [], "boom"⟩], "boom"⟩],
               "boom"⟩]
          suggestion := "Try rephrasing your request or use a direct filter expression. Examples: \x27done = false\x27, \x27priority >= 3\x27, \x27project_id = 5\x27" } := by
  exact C2_filter_translation_retry.2.2.2.1 (fun _ => some "done = false")
    (fun f => if f = "done = false" then .error "boom" else .ok [])
    "give me tasks" none 5 "boom" "boom" "boom" rfl rfl rfl

/-! ## Grouping invariants for the scheduler -/

theorem addToGroup_inv (keyOf : Task → Int) (t : Task)
    (acc : List (Int × List Task)) (processed : List Task)
    (h1 : (acc.map Prod.fst).Nodup)
    (h2 : ∀ kv ∈ acc, kv.2 = processed.filter (fun x => keyOf x == kv.1))
    (h3 : ∀ x ∈ processed, keyOf x ∈ acc.map Prod.fst) :
    ((addToGroup acc (keyOf t) t).map Prod.fst).Nodup ∧
    (∀ kv ∈ addToGroup acc (keyOf t) t,
      kv.2 = (processed ++ [t]).filter (fun x => keyOf x == kv.1)) ∧
    (∀ x ∈ processed ++ [t],
      keyOf x ∈ (addToGroup acc (keyOf t) t).map Prod.fst) := by
  unfold addToGroup
  by_cases hany : acc.any (fun kv => kv.1 == keyOf t)
  · rw [if_pos hany]
    have hkeys : (acc.map (fun kv => if kv.1 == keyOf t
        then (kv.1, kv.2 ++ [t]) else kv)).map Prod.fst = acc.map Prod.fst := by
      rw [List.map_map]
      refine List.map_congr_left fun kv _ => ?_
      simp only [Function.comp_apply]
      split <;> rfl
    have hkmem : keyOf t ∈ acc.map Prod.fst := by
      obtain ⟨kv, hkv, hke⟩ := List.any_eq_true.mp hany
      exact List.mem_map.mpr ⟨kv, hkv, by simpa using hke.symm⟩
    refine ⟨by rw [hkeys]; exact h1, ?_, ?_⟩
    · intro kv hkv
      obtain ⟨kv₀, hkv₀, hf⟩ := List.mem_map.mp hkv
      by_cases hk : kv₀.1 = keyOf t
      · rw [if_pos (by simpa using hk)] at hf
        rw [← hf]
        simp only [List.filter_append]
        rw [← h2 kv₀ hkv₀]
        simp [hk]
      · rw [if_neg (by simpa using hk)] at hf
        rw [← hf]
        simp only [List.filter_append]
        rw [← h2 kv₀ hkv₀]
        simp [Ne.symm hk]
    · intro x hx
      rw [hkeys]
      rcases List.mem_append.mp hx with hx | hx
      · exact h3 x hx
      · rw [List.mem_singleton.mp hx]
        exact hkmem
  · rw [if_neg hany]
    have hknot : keyOf t ∉ acc.map Prod.fst := by
      intro hmem
      obtain ⟨kv, hkv, hke⟩ := List.mem_map.mp hmem
      exact hany (List.any_eq_true.mpr ⟨kv, hkv, by simp [hke]⟩)
    refine ⟨?_, ?_, ?_⟩
    · rw [List.map_append]
      simp only [List.map_cons, List.map_nil]
      rw [List.nodup_append]
      exact ⟨h1, List.nodup_singleton _, by simpa using hknot⟩
    · intro kv hkv
      rcases List.mem_append.mp hkv with hkv | hkv
      · have hkne : kv.1 ≠ keyOf t := by
          intro he
          exact hknot (he ▸ List.mem_map.mpr ⟨kv, hkv, rfl⟩)
        rw [h2 kv hkv]
        simp only [List.filter_append]
        simp [Ne.symm hkne]
      · rw [List.mem_singleton.mp hkv]
        simp only [List.filter_append]
        have hempty : processed.filter (fun x => keyOf x == keyOf t) = [] := by
          rw [List.filter_eq_nil_iff]
          intro x hx
          simp only [beq_iff_eq]
          intro he
          exact hknot (he ▸ h3 x hx)
        simp [hempty]
    · intro x hx
      rw [List.map_append]
      simp only [List.map_cons, List.map_nil]
      rcases List.mem_append.mp hx with hx | hx
      · exact List.mem_append_left _ (h3 x hx)
      · rw [List.mem_singleton.mp hx]
        exact List.mem_append_right _ (by simp)

theorem group_foldl_inv (keyOf : Task → Int) :
    ∀ (l : List Task) (acc : List (Int × List Task)) (processed : List Task),
    (acc.map Prod.fst).Nodup →
    (∀ kv ∈ acc, kv.2 = processed.filter (fun x => keyOf x == kv.1)) →
    (∀ x ∈ processed, keyOf x ∈ acc.map Prod.fst) →
    (((l.foldl (fun g t => addToGroup g (keyOf t) t) acc).map Prod.fst).Nodup ∧
     (∀ kv ∈ l.foldl (fun g t => addToGroup g (keyOf t) t) acc,
       kv.2 = (processed ++ l).filter (fun x => keyOf x == kv.1)) ∧
     (∀ x ∈ processed ++ l,
       keyOf x ∈ (l.foldl (fun g t => addToGroup g (keyOf t) t) acc).map Prod.fst)) := by
  intro l
  induction l with
  | nil =>
    intro acc processed h1 h2 h3
    simp only [List.foldl_nil, List.append_nil]
    exact ⟨h1, h2, h3⟩
  | cons t l' ih =>
    intro acc processed h1 h2 h3
    obtain ⟨g1, g2, g3⟩ := addToGroup_inv keyOf t acc processed h1 h2 h3
    have hres := ih (addToGroup acc (keyOf t) t) (processed ++ [t]) g1 g2 g3
    simp only [List.foldl_cons]
    have hpl : processed ++ t :: l' = (processed ++ [t]) ++ l' := by simp
    rw [hpl]
    exact hres

/-- Characterisation of `group_tasks_by_project`: distinct keys, each group
is the in-order filter of the tasks landing in that bucket, and every task's
bucket is present. -/
theorem group_tasks_spec (tasks : List Task) (projects : List ProjectContext) :
    ((group_tasks_by_project tasks projects).map Prod.fst).Nodup ∧
    (∀ kv ∈ group_tasks_by_project tasks projects,
      kv.2 = tasks.filter
        (fun x => bucketKey (projects.map (·.project_id)) x == kv.1)) ∧
    (∀ x ∈ tasks, bucketKey (projects.map (·.project_id)) x ∈
      (group_tasks_by_project tasks projects).map Prod.fst) := by
  have h := group_foldl_inv (bucketKey (projects.map (·.project_id))) tasks []
    [] (by simp) (by simp) (by simp)
  simp only [List.nil_append] at h
  exact h

/-! ## Greedy-emission lemmas -/

theorem find?_append_none {α : Type} (p : α → Bool) (l₁ l₂ : List α)
    (h : ∀ b ∈ l₁, ¬ p b) : (l₁ ++ l₂).find? p = l₂.find? p := by
  induction l₁ with
  | nil => rfl
  | cons a t ih =>
    rw [List.cons_append, List.find?_cons_of_neg _ (by simpa using h a (by simp))]
    exact ih (fun b hb => h b (by simp [hb]))

theorem select_best_isSome (pm : Int → Option ProjectContext)
    (last : Option ProjectContext) (grouped : List (Int × List Task))
    (hne : grouped ≠ []) : (select_best pm last grouped).isSome := by
  have key : ∀ (g : List (Int × List Task)) (acc : Option (ℚ × Int)),
      acc ≠ none ∨ g ≠ [] →
      g.foldl (fun (acc : Option (ℚ × Int)) kv =>
        match pm kv.1 with
        | some ctx =>
          let cost := calculate_switch_cost last ctx
          match acc with
          | none => some (cost, kv.1)
          | some (mc, _) => if cost < mc then some (cost, kv.1) else acc
        | none =>
          match acc with
          | none => some (1/2, kv.1)
          | some (mc, _) => if (1/2 : ℚ) < mc then some (1/2, kv.1) else acc)
        acc ≠ none := by
    intro g
    induction g with
    | nil =>
      intro acc h
      rcases h with h | h
      · simpa using h
      · exact absurd rfl h
    | cons kv g' ih =>
      intro acc _
      rw [List.foldl_cons]
      refine ih _ (Or.inl ?_)
      rcases hpm : pm kv.1 with _ | ctx <;> rcases acc with _ | ⟨mc, b⟩ <;>
        simp [hpm] <;> split_ifs <;> simp
  obtain ⟨r, hr⟩ := Option.ne_none_iff_exists'.mp (key grouped none (Or.inr hne))
  rw [select_best, hr]
  rfl

theorem select_best_mem (pm : Int → Option ProjectContext)
    (last : Option ProjectContext) (grouped : List (Int × List Task))
    (pid : Int) (h : select_best pm last grouped = some pid) :
    pid ∈ grouped.map Prod.fst := by
  have key : ∀ (g : List (Int × List Task)) (acc : Option (ℚ × Int))
      (r : ℚ × Int),
      g.foldl (fun (acc : Option (ℚ × Int)) kv =>
        match pm kv.1 with
        | some ctx =>
          let cost := calculate_switch_cost last ctx
          match acc with
          | none => some (cost, kv.1)
          | some (mc, _) => if cost < mc then some (cost, kv.1) else acc
        | none =>
          match acc with
          | none => some (1/2, kv.1)
          | some (mc, _) => if (1/2 : ℚ) < mc then some (1/2, kv.1) else acc)
        acc = some r →
      acc = some r ∨ r.2 ∈ g.map Prod.fst := by
    intro g
    induction g with
    | nil =>
      intro acc r h
      exact Or.inl (by simpa using h)
    | cons kv g' ih =>
      intro acc r h
      rw [List.foldl_cons] at h
      rcases ih _ r h with hacc | hmem
      · rcases hpm : pm kv.1 with _ | ctx <;> rw [hpm] at hacc <;>
          rcases acc with _ | ⟨mc, b⟩
        · simp only [Option.some.injEq] at hacc
          exact Or.inr (by simp [← hacc])
        · dsimp only at hacc
          split_ifs at hacc
          · simp only [Option.some.injEq] at hacc
            exact Or.inr (by simp [← hacc])
          · exact Or.inl hacc
        · simp only [Option.some.injEq] at hacc
          exact Or.inr (by simp [← hacc])
        · dsimp only at hacc
          split_ifs at hacc
          · simp only [Option.some.injEq] at hacc
            exact Or.inr (by simp [← hacc])
          · exact Or.inl hacc
      · exact Or.inr (by simp [hmem])
  rw [select_best] at h
  obtain ⟨r, hr, hr2⟩ := Option.map_eq_some'.mp h
  rcases key grouped none r hr with hacc | hmem
  · exact absurd hacc (by simp)
  · rw [← hr2]
    exact hmem

theorem find_erase_join (grouped : List (Int × List Task)) (pid : Int)
    (h : pid ∈ grouped.map Prod.fst) :
    ((grouped.map Prod.snd).flatten).Perm
      ((((grouped.find? (fun kv => kv.1 == pid)).map (·.2)).getD []) ++
        ((grouped.eraseP (fun kv => kv.1 == pid)).map Prod.snd).flatten) := by
  induction grouped with
  | nil => exact absurd h (by simp)
  | cons kv g' ih =>
    by_cases hk : kv.1 = pid
    · rw [List.find?_cons_of_pos _ (by simpa using hk),
        List.eraseP_cons_of_pos (by simpa using hk)]
      simp
    · rw [List.find?_cons_of_neg _ (by simpa using hk),
        List.eraseP_cons_of_neg (by simpa using hk)]
      have hmem : pid ∈ g'.map Prod.fst := by
        rcases List.mem_map.mp h with ⟨kv₂, hkv₂, hfst⟩
        rcases List.mem_cons.mp hkv₂ with he | hkv₂
        · exact absurd (by rw [he] at hfst; exact hfst) hk
        · exact List.mem_map.mpr ⟨kv₂, hkv₂, hfst⟩
      have hperm := ih hmem
      simp only [List.map_cons, List.flatten_cons]
      refine (hperm.append_left kv.2).trans ?_
      rw [← List.append_assoc, ← List.append_assoc]
      exact (List.perm_append_comm).append_right _

/-- The greedy loop emits exactly the groups of a permutation of its input
association list, each group in full.  (With fuel = number of groups; each
iteration removes the selected group.) -/
theorem greedy_emit_entries (pm : Int → Option ProjectContext) :
    ∀ (n : Nat) (grouped : List (Int × List Task)) (last : Option ProjectContext),
      grouped.length = n →
      ∃ gp : List (Int × List Task), gp.Perm grouped ∧
        greedy_emit pm n last grouped = (gp.map Prod.snd).flatten := by
  intro n
  induction n with
  | zero =>
    intro grouped last hlen
    have : grouped = [] := List.length_eq_zero.mp hlen
    exact ⟨[], by simp [this], by simp [greedy_emit]⟩
  | succ m ih =>
    intro grouped last hlen
    have hne : grouped ≠ [] := by
      intro h
      rw [h] at hlen
      simp at hlen
    obtain ⟨pid, hpid⟩ := Option.isSome_iff_exists.mp
      (select_best_isSome pm last grouped hne)
    have hmem := select_best_mem pm last grouped pid hpid
    have hlen2 : (grouped.eraseP (fun kv => kv.1 == pid)).length = m := by
      obtain ⟨kv₂, hkv₂, hfst⟩ := List.mem_map.mp hmem
      have : (grouped.eraseP (fun kv => kv.1 == pid)).length =
          grouped.length - 1 :=
        List.length_eraseP_of_mem hkv₂ (by simpa using hfst)
      omega
    obtain ⟨gp', hgp', hemit⟩ :=
      ih (grouped.eraseP (fun kv => kv.1 == pid)) (pm pid) hlen2
    -- the selected entry
    have hfind : ∃ kv, grouped.find? (fun kv => kv.1 == pid) = some kv := by
      obtain ⟨kv₂, hkv₂, hfst⟩ := List.mem_map.mp hmem
      rcases hf : grouped.find? (fun kv => kv.1 == pid) with _ | kv
      · have h2 := List.find?_eq_none.mp hf kv₂ hkv₂
        exact absurd (by simpa using hfst) (by simpa using h2)
      · exact ⟨kv, hf⟩
    obtain ⟨kv, hkv⟩ := hfind
    have hpkv := List.find?_some hkv
    have hkvmem : kv ∈ grouped := List.mem_of_find?_eq_some hkv
    obtain ⟨a, l₁, l₂, hl₁, hpa, hsplit, herase⟩ :=
      List.exists_of_eraseP (p := fun kv => kv.1 == pid) hkvmem hpkv
    have hfa : grouped.find? (fun kv => kv.1 == pid) = some a := by
      rw [hsplit, find?_append_none _ _ _ hl₁,
        List.find?_cons_of_pos (p := fun kv : Int × List Task => kv.1 == pid) _ hpa]
    have hak : kv = a := Option.some.inj (hkv.symm.trans hfa)
    have hisEmpty : grouped.isEmpty = false := by
      cases grouped
      · exact absurd rfl hne
      · rfl
    refine ⟨kv :: gp', ?_, ?_⟩
    · refine (hgp'.cons kv).trans ?_
      rw [herase, hak, hsplit]
      exact (List.perm_middle).symm
    · show greedy_emit pm (m + 1) last grouped = _
      rw [greedy_emit, hisEmpty]
      simp only [Bool.false_eq_true, if_false]
      rw [hpid]
      dsimp only
      rw [hkv, hemit]
      simp
theorem count_flatten_groups (keyOf : Task → Int) (tasks : List Task) :
    ∀ (L : List (Int × List Task)), (L.map Prod.fst).Nodup →
    (∀ kv ∈ L, kv.2 = tasks.filter (fun x => keyOf x == kv.1)) →
    ∀ a : Task, ((L.map Prod.snd).flatten).count a =
      if keyOf a ∈ L.map Prod.fst then tasks.count a else 0 := by
  intro L
  induction L with
  | nil => intro _ _ a; simp
  | cons kv L' ih =>
    intro hnd hv a
    have hnd' : (L'.map Prod.fst).Nodup := by
      simp only [List.map_cons, List.nodup_cons] at hnd
      exact hnd.2
    have hknotin : kv.1 ∉ L'.map Prod.fst := by
      simp only [List.map_cons, List.nodup_cons] at hnd
      exact hnd.1
    have hval := hv kv (by simp)
    have hrest := ih hnd' (fun kv₂ h₂ => hv kv₂ (by simp [h₂])) a
    simp only [List.map_cons, List.flatten_cons, List.count_append, hrest]
    by_cases hk : keyOf a = kv.1
    · have hcnt : kv.2.count a = tasks.count a := by
        rw [hval]
        exact List.count_filter (by simp [hk])
      have hnot : keyOf a ∉ L'.map Prod.fst := by
        rw [hk]
        exact hknotin
      rw [hcnt, if_neg hnot,
        if_pos (show keyOf a ∈ kv.1 :: L'.map Prod.fst from by
          rw [hk]; exact List.mem_cons_self _ _)]
      omega
    · have hcnt : kv.2.count a = 0 := by
        rw [hval]
        refine List.count_eq_zero.mpr fun hmem => ?_
        have h2 := List.of_mem_filter hmem
        exact hk (by simpa using h2)
      have hmemiff : keyOf a ∈ kv.1 :: L'.map Prod.fst ↔
          keyOf a ∈ L'.map Prod.fst := by
        simp [hk]
      rw [hcnt]
      by_cases hmem2 : keyOf a ∈ L'.map Prod.fst
      · rw [if_pos hmem2, if_pos (hmemiff.mpr hmem2)]
        omega
      · rw [if_neg hmem2, if_neg (fun h => hmem2 (hmemiff.mp h))]

theorem flatten_group_perm (tasks : List Task) (projects : List ProjectContext) :
    (((group_tasks_by_project tasks projects).map Prod.snd).flatten).Perm tasks := by
  obtain ⟨hnd, hv, hm⟩ := group_tasks_spec tasks projects
  refine List.perm_iff_count.mpr fun a => ?_
  rw [count_flatten_groups (bucketKey (projects.map (·.project_id))) tasks _ hnd hv a]
  by_cases ha : a ∈ tasks
  · rw [if_pos (hm a ha)]
  · rw [List.count_eq_zero.mpr ha]
    split_ifs <;> rfl

/-- C10: `optimize_task_order` always returns a permutation of its input —
no task is dropped or duplicated, including tasks bucketed under the
unknown-project key 0; the greedy loop consumes every group. -/
theorem C10_optimize_task_order_perm (tasks : List Task)
    (projects : List ProjectContext) (current_project_id : Option Int) :
    (optimize_task_order tasks projects current_project_id).Perm tasks := by
  unfold optimize_task_order
  dsimp only
  by_cases hlen : tasks.length ≤ 1
  · rw [if_pos hlen]
  · rw [if_neg hlen]
    have hjoin := flatten_group_perm tasks projects
    by_cases hcur : current_project_id.getD 0 ≠ 0 ∧
        (group_tasks_by_project tasks projects).any
          (fun kv => kv.1 == current_project_id.getD 0)
    · rw [if_pos hcur, if_pos hcur]
      obtain ⟨kvc, hkvc, hkc⟩ := List.any_eq_true.mp hcur.2
      have hmemc : current_project_id.getD 0 ∈
          (group_tasks_by_project tasks projects).map Prod.fst :=
        List.mem_map.mpr ⟨kvc, hkvc, by simpa using hkc⟩
      have hfe := find_erase_join (group_tasks_by_project tasks projects)
        (current_project_id.getD 0) hmemc
      obtain ⟨gp, hgp, hemit⟩ := greedy_emit_entries
        (project_map_get projects)
        ((group_tasks_by_project tasks projects).eraseP
          (fun kv => kv.1 == current_project_id.getD 0)).length
        ((group_tasks_by_project tasks projects).eraseP
          (fun kv => kv.1 == current_project_id.getD 0))
        (if current_project_id.getD 0 ≠ 0 then
          project_map_get projects (current_project_id.getD 0) else none) rfl
      rw [hemit]
      refine List.Perm.trans ?_ hjoin
      exact List.Perm.trans (((hgp.map Prod.snd).flatten).append_left _) hfe.symm
    · rw [if_neg hcur, if_neg hcur]
      obtain ⟨gp, hgp, hemit⟩ := greedy_emit_entries
        (project_map_get projects)
        (group_tasks_by_project tasks projects).length
        (group_tasks_by_project tasks projects)
        (if current_project_id.getD 0 ≠ 0 then
          project_map_get projects (current_project_id.getD 0) else none) rfl
      rw [hemit]
      simp only [List.nil_append]
      exact List.Perm.trans ((hgp.map Prod.snd).flatten) hjoin

/-! ## Greedy selection as a leftmost argmin (C7) -/

theorem select_best_body_eq (pm : Int → Option ProjectContext)
    (last : Option ProjectContext) :
    (fun (acc : Option (ℚ × Int)) (kv : Int × List Task) =>
      match pm kv.1 with
      | some ctx =>
        let cost := calculate_switch_cost last ctx
        match acc with
        | none => some (cost, kv.1)
        | some (mc, _) => if cost < mc then some (cost, kv.1) else acc
      | none =>
        match acc with
        | none => some (1/2, kv.1)
        | some (mc, _) => if (1/2 : ℚ) < mc then some (1/2, kv.1) else acc) =
    (fun (acc : Option (ℚ × Int)) (kv : Int × List Task) =>
      match acc with
      | none => some (candidate_cost pm last kv.1, kv.1)
      | some (mc, _) =>
        if candidate_cost pm last kv.1 < mc
        then some (candidate_cost pm last kv.1, kv.1) else acc) := by
  funext acc kv
  rcases hpm : pm kv.1 with _ | ctx <;> rcases acc with _ | ⟨mc, b⟩ <;>
    simp [candidate_cost, hpm]

theorem argmin_leftmost_cons_ne_none (cost : Int → ℚ) (k : Int) (ks : List Int) :
    ∃ m, argmin_leftmost cost (k :: ks) = some m := by
  rcases hA : argmin_leftmost cost ks with _ | b <;> rw [argmin_leftmost, hA]
  · exact ⟨k, rfl⟩
  · dsimp only
    split_ifs
    · exact ⟨b, rfl⟩
    · exact ⟨k, rfl⟩

theorem argmin_leftmost_cons_cons (cost : Int → ℚ) (x y : Int) (l : List Int) :
    argmin_leftmost cost (x :: y :: l) =
      argmin_leftmost cost ((if cost y < cost x then y else x) :: l) := by
  rcases hA : argmin_leftmost cost l with _ | a
  · rw [argmin_leftmost, argmin_leftmost, hA, argmin_leftmost, hA]
    dsimp only
    split_ifs <;> rfl
  · rw [argmin_leftmost, argmin_leftmost, hA, argmin_leftmost, hA]
    dsimp only
    by_cases hay : cost a < cost y <;> by_cases hyx : cost y < cost x
    · simp [hay, hyx, show cost a < cost x by linarith]
    · simp [hay, hyx]
    · simp [hay, hyx]
    · simp [hay, hyx, show ¬ cost a < cost x by
        push_neg at hay hyx ⊢; linarith]

theorem fold_step_argmin (cost : Int → ℚ) :
    ∀ (g : List (Int × List Task)) (b : Int),
    g.foldl (fun (acc : Option (ℚ × Int)) (kv : Int × List Task) =>
        match acc with
        | none => some (cost kv.1, kv.1)
        | some (mc, _) => if cost kv.1 < mc then some (cost kv.1, kv.1) else acc)
      (some (cost b, b)) =
    (argmin_leftmost cost (b :: g.map Prod.fst)).map (fun m => (cost m, m)) := by
  intro g
  induction g with
  | nil =>
    intro b
    simp [argmin_leftmost]
  | cons kv g' ih =>
    intro b
    rw [List.foldl_cons, List.map_cons, argmin_leftmost_cons_cons]
    dsimp only
    by_cases hc : cost kv.1 < cost b
    · simp only [if_pos hc]
      exact ih kv.1
    · simp only [if_neg hc]
      exact ih b

theorem select_best_eq_argmin (pm : Int → Option ProjectContext)
    (last : Option ProjectContext) (grouped : List (Int × List Task)) :
    select_best pm last grouped =
      argmin_leftmost (candidate_cost pm last) (grouped.map Prod.fst) := by
  rw [select_best, select_best_body_eq]
  cases grouped with
  | nil => rfl
  | cons kv g' =>
    rw [List.foldl_cons]
    dsimp only
    rw [fold_step_argmin (candidate_cost pm last) g' kv.1, List.map_cons]
    obtain ⟨m, hm⟩ := argmin_leftmost_cons_ne_none (candidate_cost pm last)
      kv.1 (g'.map Prod.fst)
    rw [hm]
    rfl

/-! ## Scheduler order preservation (C7) -/

theorem find_cons_eraseP_perm (g : List (Int × List Task)) (pid : Int)
    (kv : Int × List Task)
    (hkv : g.find? (fun kv => kv.1 == pid) = some kv) :
    (kv :: g.eraseP (fun kv => kv.1 == pid)).Perm g := by
  have hpkv := List.find?_some hkv
  have hkvmem : kv ∈ g := List.mem_of_find?_eq_some hkv
  obtain ⟨a, l₁, l₂, hl₁, hpa, hsplit, herase⟩ :=
    List.exists_of_eraseP (p := fun kv => kv.1 == pid) hkvmem hpkv
  have hfa : g.find? (fun kv => kv.1 == pid) = some a := by
    rw [hsplit, find?_append_none _ _ _ hl₁,
      List.find?_cons_of_pos (p := fun kv : Int × List Task => kv.1 == pid) _ hpa]
  have hak : kv = a := Option.some.inj (hkv.symm.trans hfa)
  rw [herase, hak, hsplit]
  exact List.perm_middle.symm

/-- `optimize_task_order` on a list of length at least 2 emits exactly the
groups of some permutation of the grouped association list, each in full. -/
theorem optimize_entries (tasks : List Task) (projects : List ProjectContext)
    (current_project_id : Option Int) (hlen : ¬ tasks.length ≤ 1) :
    ∃ gq : List (Int × List Task),
      gq.Perm (group_tasks_by_project tasks projects) ∧
      optimize_task_order tasks projects current_project_id =
        (gq.map Prod.snd).flatten := by
  unfold optimize_task_order
  dsimp only
  rw [if_neg hlen]
  by_cases hcur : current_project_id.getD 0 ≠ 0 ∧
      (group_tasks_by_project tasks projects).any
        (fun kv => kv.1 == current_project_id.getD 0)
  · rw [if_pos hcur, if_pos hcur]
    obtain ⟨kvc₀, hkvc₀, hkc₀⟩ := List.any_eq_true.mp hcur.2
    have hfind : ∃ kvc, (group_tasks_by_project tasks projects).find?
        (fun kv => kv.1 == current_project_id.getD 0) = some kvc := by
      rcases hf : (group_tasks_by_project tasks projects).find?
          (fun kv => kv.1 == current_project_id.getD 0) with _ | kvc
      · exact absurd hkc₀ (by simpa using List.find?_eq_none.mp hf kvc₀ hkvc₀)
      · exact ⟨kvc, hf⟩
    obtain ⟨kvc, hkvc⟩ := hfind
    obtain ⟨gp, hgp, hemit⟩ := greedy_emit_entries (project_map_get projects)
      ((group_tasks_by_project tasks projects).eraseP
        (fun kv => kv.1 == current_project_id.getD 0)).length
      ((group_tasks_by_project tasks projects).eraseP
        (fun kv => kv.1 == current_project_id.getD 0))
      (if current_project_id.getD 0 ≠ 0 then
        project_map_get projects (current_project_id.getD 0) else none) rfl
    refine ⟨kvc :: gp, ?_, ?_⟩
    · exact (hgp.cons kvc).trans (find_cons_eraseP_perm _ _ _ hkvc)
    · rw [hkvc, hemit]
      simp
  · rw [if_neg hcur, if_neg hcur]
    obtain ⟨gp, hgp, hemit⟩ := greedy_emit_entries (project_map_get projects)
      (group_tasks_by_project tasks projects).length
      (group_tasks_by_project tasks projects)
      (if current_project_id.getD 0 ≠ 0 then
        project_map_get projects (current_project_id.getD 0) else none) rfl
    exact ⟨gp, hgp, by rw [hemit]; simp⟩

theorem filter_flatten {α : Type} (q : α → Bool) :
    ∀ L : List (List α),
    (L.flatten).filter q = (L.map (List.filter q)).flatten := by
  intro L
  induction L with
  | nil => rfl
  | cons l L' ih => simp [List.filter_append, ih]

/-- A bucket filtered to one project id is the whole project filter when the
bucket is the project's own bucket, and empty otherwise. -/
theorem entry_filter_eq (tasks : List Task) (pids : List Int) (k p : Int) :
    (tasks.filter (fun x => bucketKey pids x == k)).filter
        (fun t => t.raw_task.project_id == p) =
      if k = (if p ∈ pids then p else 0)
      then tasks.filter (fun t => t.raw_task.project_id == p) else [] := by
  rw [List.filter_filter]
  by_cases hk : k = (if p ∈ pids then p else 0)
  · rw [if_pos hk]
    refine List.filter_congr fun x hx => ?_
    by_cases hxp : x.raw_task.project_id = p
    · have hbk : bucketKey pids x = k := by
        rw [bucketKey, hxp, hk]
      simp [hxp, hbk]
    · simp [hxp]
  · rw [if_neg hk]
    refine List.filter_eq_nil_iff.mpr fun x hx => ?_
    intro hcond
    simp only [Bool.and_eq_true, beq_iff_eq] at hcond
    obtain ⟨hpp, hbk⟩ := hcond
    apply hk
    rw [← hbk, bucketKey, hpp]

/-- Flattening per-bucket filters whose buckets have distinct keys: only the
matching bucket (if present) contributes. -/
theorem flatten_filter_single (q : Task → Bool) (V : List Task) (bp : Int) :
    ∀ L : List (Int × List Task), (L.map Prod.fst).Nodup →
    (∀ kv ∈ L, kv.2.filter q = if kv.1 = bp then V else []) →
    (L.map (fun kv => kv.2.filter q)).flatten =
      if bp ∈ L.map Prod.fst then V else [] := by
  intro L
  induction L with
  | nil =>
    intro _ _
    simp
  | cons kv L' ih =>
    intro hnd hv
    have hnd' : (L'.map Prod.fst).Nodup := by
      simp only [List.map_cons, List.nodup_cons] at hnd
      exact hnd.2
    have hknotin : kv.1 ∉ L'.map Prod.fst := by
      simp only [List.map_cons, List.nodup_cons] at hnd
      exact hnd.1
    have hrest := ih hnd' (fun kv₂ h₂ => hv kv₂ (by simp [h₂]))
    have hhead := hv kv (by simp)
    simp only [List.map_cons, List.flatten_cons, hrest, hhead]
    by_cases hk : kv.1 = bp
    · rw [if_pos hk, if_neg (show bp ∉ L'.map Prod.fst from hk ▸ hknotin),
        if_pos (show bp ∈ kv.1 :: L'.map Prod.fst from by
          rw [hk]; exact List.mem_cons_self _ _)]
      simp
    · rw [if_neg hk]
      by_cases hmem : bp ∈ L'.map Prod.fst
      · rw [if_pos hmem, if_pos (List.mem_cons_of_mem _ hmem)]
        simp
      · rw [if_neg hmem, if_neg (show bp ∉ kv.1 :: L'.map Prod.fst from by
          intro h
          rcases List.mem_cons.mp h with h | h
          · exact hk h.symm
          · exact hmem h)]
        simp

/-- If a project's bucket key is absent from the grouped keys, no input task
belongs to that project. -/
theorem filter_nil_of_key_missing (tasks : List Task)
    (projects : List ProjectContext) (p : Int)
    (hnm : (if p ∈ projects.map (·.project_id) then p else 0) ∉
      (group_tasks_by_project tasks projects).map Prod.fst) :
    tasks.filter (fun t => t.raw_task.project_id == p) = [] := by
  obtain ⟨_, _, hm⟩ := group_tasks_spec tasks projects
  refine List.filter_eq_nil_iff.mpr fun x hx => ?_
  simp only [beq_iff_eq]
  intro hxp
  apply hnm
  have hmem := hm x hx
  rwa [bucketKey, hxp] at hmem

/-- Per-project order preservation: the optimizer never reorders the tasks of
any single project. -/
theorem optimize_filter_preserved (tasks : List Task)
    (projects : List ProjectContext) (current_project_id : Option Int) (p : Int) :
    (optimize_task_order tasks projects current_project_id).filter
        (fun t => t.raw_task.project_id == p) =
      tasks.filter (fun t => t.raw_task.project_id == p) := by
  by_cases hlen : tasks.length ≤ 1
  · unfold optimize_task_order
    rw [if_pos hlen]
  · obtain ⟨gq, hgq, hout⟩ := optimize_entries tasks projects
      current_project_id hlen
    obtain ⟨hnd, hv, hm⟩ := group_tasks_spec tasks projects
    have hndq : (gq.map Prod.fst).Nodup := ((hgq.map Prod.fst).nodup_iff).mpr hnd
    have hvq : ∀ kv ∈ gq,
        kv.2.filter (fun t => t.raw_task.project_id == p) =
        if kv.1 = (if p ∈ projects.map (·.project_id) then p else 0)
        then tasks.filter (fun t => t.raw_task.project_id == p) else [] := by
      intro kv hkv
      rw [hv kv (hgq.mem_iff.mp hkv)]
      exact entry_filter_eq tasks _ kv.1 p
    rw [hout, filter_flatten, List.map_map]
    have hcomp : List.filter (fun t => t.raw_task.project_id == p) ∘
        (Prod.snd : Int × List Task → List Task) =
        fun kv : Int × List Task =>
          kv.2.filter (fun t => t.raw_task.project_id == p) := rfl
    rw [hcomp, flatten_filter_single _ _ _ gq hndq hvq]
    by_cases hmem : (if p ∈ projects.map (·.project_id) then p else 0) ∈
        gq.map Prod.fst
    · rw [if_pos hmem]
    · rw [if_neg hmem]
      have hnm : (if p ∈ projects.map (·.project_id) then p else 0) ∉
          (group_tasks_by_project tasks projects).map Prod.fst := by
        intro h
        exact hmem (((hgq.map Prod.fst).mem_iff).mpr h)
      rw [filter_nil_of_key_missing tasks projects p hnm]

/-! ## Contiguity of project groups (C7) -/

theorem contig_of_allne (l : List Task) (p : Int)
    (h : ∀ t ∈ l, t.raw_task.project_id ≠ p) : contigBy l p = true := by
  rw [contigBy]
  have h1 : l.dropWhile (fun t => t.raw_task.project_id ≠ p) = [] :=
    List.dropWhile_eq_nil_iff.mpr (fun x hx => by simpa using h x hx)
  rw [h1]
  rfl

theorem contigBy_of_split (A B C : List Task) (p : Int)
    (hA : ∀ t ∈ A, t.raw_task.project_id ≠ p)
    (hB : ∀ t ∈ B, t.raw_task.project_id = p)
    (hC : ∀ t ∈ C, t.raw_task.project_id ≠ p) :
    contigBy (A ++ B ++ C) p = true := by
  rw [contigBy, List.append_assoc,
    dropWhile_append_all _ A (B ++ C) (fun t ht => by simpa using hA t ht)]
  cases B with
  | nil =>
    rw [List.nil_append]
    have h1 : C.dropWhile (fun t => t.raw_task.project_id ≠ p) = [] :=
      List.dropWhile_eq_nil_iff.mpr (fun x hx => by simpa using hC x hx)
    rw [h1]
    rfl
  | cons b B' =>
    rw [List.cons_append, List.dropWhile_cons,
      if_neg (by simpa using hB b (by simp)),
      List.dropWhile_cons, if_pos (by simpa using hB b (by simp)),
      dropWhile_append_all _ B' C (fun t ht => by simpa using hB t (by simp [ht]))]
    cases C with
    | nil => rfl
    | cons c C' =>
      rw [List.dropWhile_cons, if_neg (by simpa using hC c (by simp))]
      simp only [List.all_eq_true]
      intro x hx
      simpa using hC x hx

theorem contig_short (tasks : List Task) (hlen : tasks.length ≤ 1) (p : Int) :
    contigBy tasks p = true := by
  cases tasks with
  | nil => rfl
  | cons t ts =>
    cases ts with
    | nil =>
      by_cases hp : t.raw_task.project_id = p
      · have h := contigBy_of_split [] [t] [] p (by simp)
          (fun x hx => (List.mem_singleton.mp hx) ▸ hp) (by simp)
        simpa using h
      · exact contig_of_allne [t] p
          (fun x hx => (List.mem_singleton.mp hx) ▸ hp)
    | cons t2 ts2 =>
      simp [List.length_cons] at hlen

theorem mem_flatten_entries {L : List (Int × List Task)} {x : Task}
    (hx : x ∈ (L.map Prod.snd).flatten) : ∃ kv ∈ L, x ∈ kv.2 := by
  obtain ⟨l, hl, hxl⟩ := List.mem_flatten.mp hx
  obtain ⟨kv, hkv, he⟩ := List.mem_map.mp hl
  refine ⟨kv, hkv, ?_⟩
  rw [show kv.2 = l from he]
  exact hxl

/-- When every task's project id is a known project, each bucket holds tasks
of exactly its key's project. -/
theorem mem_entry_proj (tasks : List Task) (projects : List ProjectContext)
    (hk : ∀ t ∈ tasks, t.raw_task.project_id ∈ projects.map (·.project_id))
    (kv : Int × List Task)
    (hkv : kv ∈ group_tasks_by_project tasks projects) :
    ∀ x ∈ kv.2, x.raw_task.project_id = kv.1 := by
  obtain ⟨_, hv, _⟩ := group_tasks_spec tasks projects
  intro x hx
  rw [hv kv hkv] at hx
  have hxt := List.mem_of_mem_filter hx
  have hbk := List.of_mem_filter hx
  simp only [beq_iff_eq] at hbk
  rw [← hbk, bucketKey, if_pos (hk x hxt)]

/-- Contiguity: when every task belongs to a known project, the optimizer
output keeps each project's tasks in consecutive positions. -/
theorem optimize_contig (tasks : List Task) (projects : List ProjectContext)
    (current_project_id : Option Int)
    (hk : ∀ t ∈ tasks, t.raw_task.project_id ∈ projects.map (·.project_id))
    (p : Int) :
    contigBy (optimize_task_order tasks projects current_project_id) p = true := by
  by_cases hlen : tasks.length ≤ 1
  · have hout : optimize_task_order tasks projects current_project_id = tasks := by
      unfold optimize_task_order
      rw [if_pos hlen]
    rw [hout]
    exact contig_short tasks hlen p
  · obtain ⟨gq, hgq, hout⟩ := optimize_entries tasks projects
      current_project_id hlen
    obtain ⟨hnd, hv, hm⟩ := group_tasks_spec tasks projects
    have hndq : (gq.map Prod.fst).Nodup := ((hgq.map Prod.fst).nodup_iff).mpr hnd
    have hproj : ∀ kv ∈ gq, ∀ x ∈ kv.2, x.raw_task.project_id = kv.1 :=
      fun kv hkv => mem_entry_proj tasks projects hk kv (hgq.mem_iff.mp hkv)
    rw [hout]
    by_cases hpm : p ∈ gq.map Prod.fst
    · obtain ⟨kv, hkv, hk1⟩ := List.mem_map.mp hpm
      obtain ⟨g1, g2, hsplit⟩ := List.append_of_mem hkv
      have hkeys := hndq
      rw [hsplit, List.map_append, List.map_cons] at hkeys
      have hdis := (List.nodup_append.mp hkeys).2.2
      have hnotg1 : p ∉ g1.map Prod.fst := by
        intro hmem
        exact hdis hmem (by rw [hk1]; exact List.mem_cons_self _ _)
      have hnotg2 : p ∉ g2.map Prod.fst := by
        have hnd2 := (List.nodup_append.mp hkeys).2.1
        rw [List.nodup_cons] at hnd2
        rw [← hk1]
        exact hnd2.1
      rw [hsplit, List.map_append, List.flatten_append, List.map_cons,
        List.flatten_cons, ← List.append_assoc]
      refine contigBy_of_split _ _ _ p ?_ ?_ ?_
      · intro x hx
        obtain ⟨kv2, hkv2, hxkv2⟩ := mem_flatten_entries hx
        have hpx := hproj kv2 (by rw [hsplit]; exact List.mem_append_left _ hkv2)
          x hxkv2
        rw [hpx]
        intro he
        exact hnotg1 (he ▸ List.mem_map.mpr ⟨kv2, hkv2, rfl⟩)
      · intro x hx
        have hpx := hproj kv (by rw [hsplit]; simp) x hx
        rw [hpx, hk1]
      · intro x hx
        obtain ⟨kv2, hkv2, hxkv2⟩ := mem_flatten_entries hx
        have hpx := hproj kv2 (by
          rw [hsplit]
          exact List.mem_append_right _ (List.mem_cons_of_mem _ hkv2)) x hxkv2
        rw [hpx]
        intro he
        exact hnotg2 (he ▸ List.mem_map.mpr ⟨kv2, hkv2, rfl⟩)
    · refine contig_of_allne _ p fun x hx => ?_
      obtain ⟨kv2, hkv2, hxkv2⟩ := mem_flatten_entries hx
      have hpx := hproj kv2 hkv2 x hxkv2
      rw [hpx]
      intro he
      exact hpm (he ▸ List.mem_map.mpr ⟨kv2, hkv2, rfl⟩)

/-- When the current project id is nonzero, is a known project, and owns a
bucket, its whole bucket — the in-order project filter — is emitted first. -/
theorem optimize_current_first (tasks : List Task)
    (projects : List ProjectContext) (c : Int) (hc0 : c ≠ 0)
    (hcp : c ∈ projects.map (·.project_id))
    (hany : (group_tasks_by_project tasks projects).any
      (fun kv => kv.1 == c) = true) :
    ∃ rest, optimize_task_order tasks projects (some c) =
      tasks.filter (fun t => t.raw_task.project_id == c) ++ rest := by
  have hfeq : tasks.filter
      (fun x => bucketKey (projects.map (·.project_id)) x == c) =
      tasks.filter (fun t => t.raw_task.project_id == c) := by
    refine List.filter_congr fun x hx => ?_
    by_cases hxp : x.raw_task.project_id ∈ projects.map (·.project_id)
    · rw [bucketKey, if_pos hxp]
    · rw [bucketKey, if_neg hxp]
      have h1 : ((0 : Int) == c) = false := by simpa using Ne.symm hc0
      have h2 : (x.raw_task.project_id == c) = false := by
        simp only [beq_eq_false_iff_ne]
        intro he
        exact hxp (he ▸ hcp)
      rw [h1, h2]
  by_cases hlen : tasks.length ≤ 1
  · cases tasks with
    | nil => simp [group_tasks_by_project] at hany
    | cons t ts =>
      cases ts with
      | nil =>
        have hout : optimize_task_order [t] projects (some c) = [t] := by
          unfold optimize_task_order
          rw [if_pos hlen]
        have hg : group_tasks_by_project [t] projects =
            [(bucketKey (projects.map (·.project_id)) t, [t])] := by
          simp [group_tasks_by_project, addToGroup]
        rw [hg] at hany
        have hbk : bucketKey (projects.map (·.project_id)) t = c := by
          simpa using hany
        have hproj : t.raw_task.project_id = c := by
          by_cases hmem : t.raw_task.project_id ∈ projects.map (·.project_id)
          · rw [bucketKey, if_pos hmem] at hbk
            exact hbk
          · rw [bucketKey, if_neg hmem] at hbk
            exact absurd hbk.symm hc0
        refine ⟨[], ?_⟩
        rw [hout]
        simp [hproj]
      | cons t2 ts2 =>
        simp [List.length_cons] at hlen
  · unfold optimize_task_order
    dsimp only
    rw [if_neg hlen]
    have hcond : (some c).getD 0 ≠ 0 ∧
        (group_tasks_by_project tasks projects).any
          (fun kv => kv.1 == (some c).getD 0) := ⟨hc0, hany⟩
    rw [if_pos hcond, if_pos hcond]
    obtain ⟨kvc₀, hkvc₀, hkc₀⟩ := List.any_eq_true.mp hany
    have hfind : ∃ kvc, (group_tasks_by_project tasks projects).find?
        (fun kv => kv.1 == (some c).getD 0) = some kvc := by
      rcases hf : (group_tasks_by_project tasks projects).find?
          (fun kv => kv.1 == (some c).getD 0) with _ | kvc
      · exact absurd hkc₀ (by simpa using List.find?_eq_none.mp hf kvc₀ hkvc₀)
      · exact ⟨kvc, hf⟩
    obtain ⟨kvc, hkvc⟩ := hfind
    refine ⟨greedy_emit (project_map_get projects)
      ((group_tasks_by_project tasks projects).eraseP
        (fun kv => kv.1 == (some c).getD 0)).length
      (if (some c).getD 0 ≠ 0 then
        project_map_get projects ((some c).getD 0) else none)
      ((group_tasks_by_project tasks projects).eraseP
        (fun kv => kv.1 == (some c).getD 0)), ?_⟩
    rw [hkvc]
    have hkc : kvc.1 = c := by simpa using List.find?_some hkvc
    obtain ⟨_, hv, _⟩ := group_tasks_spec tasks projects
    have hval : kvc.2 = tasks.filter (fun t => t.raw_task.project_id == c) := by
      rw [hv kvc (List.mem_of_find?_eq_some hkvc), hkc, hfeq]
    simp only [Option.map_some', Option.getD_some]
    rw [hval]

/-- C7 (amended): for every task list, projects list and optional current
project id, `optimize_task_order` (1) returns lists of length ≤ 1 unchanged;
(2) preserves the original relative order of each project's tasks (the
per-project filter of the output equals that of the input); (3) keeps
same-project tasks contiguous *provided every task belongs to a listed
project* (tasks of unknown projects share the fallback bucket 0, where
distinct projects interleave — see the counterexample); (4) when a nonzero
current project id naming a listed project has a task group, that group —
the project's tasks in full original order — is emitted first; and (5) the
greedy selection picks exactly the leftmost minimiser of the candidate cost,
which assigns `calculate_switch_cost` to resolvable groups and the default
`0.5` to groups whose project context cannot be resolved. -/
theorem C7_optimize_task_order_order (tasks : List Task)
    (projects : List ProjectContext) (current_project_id : Option Int) :
    (tasks.length ≤ 1 →
      optimize_task_order tasks projects current_project_id = tasks) ∧
    (∀ p : Int,
      (optimize_task_order tasks projects current_project_id).filter
          (fun t => t.raw_task.project_id == p) =
        tasks.filter (fun t => t.raw_task.project_id == p)) ∧
    ((∀ t ∈ tasks, t.raw_task.project_id ∈ projects.map (·.project_id)) →
      ∀ p : Int,
        contigBy (optimize_task_order tasks projects current_project_id) p =
          true) ∧
    (∀ c : Int, current_project_id = some c → c ≠ 0 →
      c ∈ projects.map (·.project_id) →
      (group_tasks_by_project tasks projects).any (fun kv => kv.1 == c) = true →
      ∃ rest, optimize_task_order tasks projects current_project_id =
        tasks.filter (fun t => t.raw_task.project_id == c) ++ rest) ∧
    (∀ (last : Option ProjectContext) (grouped : List (Int × List Task)),
      select_best (project_map_get projects) last grouped =
        argmin_leftmost (candidate_cost (project_map_get projects) last)
          (grouped.map Prod.fst)) := by
  refine ⟨?_, optimize_filter_preserved tasks projects current_project_id,
    fun hk p => optimize_contig tasks projects current_project_id hk p,
    ?_, fun last grouped => select_best_eq_argmin _ last grouped⟩
  · intro hlen
    unfold optimize_task_order
    rw [if_pos hlen]
  · intro c hcur hc0 hcp hany
    rw [hcur]
    exact optimize_current_first tasks projects c hc0 hcp hany

/-- C7 counterexample to unconditional contiguity: three tasks of the two
unknown projects 100 and 200 (no project contexts at all) land in the shared
fallback bucket 0 and are emitted in their original interleaved order, so
the two project-100 tasks are not contiguous in the output. -/
theorem C7_counterexample_unknown_projects :
    optimize_task_order
      [{ raw_task := { id := 1, project_id := 100 } },
       { raw_task := { id := 2, project_id := 200 } },
       { raw_task := { id := 3, project_id := 100 } }] [] none =
      [{ raw_task := { id := 1, project_id := 100 } },
       { raw_task := { id := 2, project_id := 200 } },
       { raw_task := { id := 3, project_id := 100 } }] ∧
    contigBy (optimize_task_order
      [{ raw_task := { id := 1, project_id := 100 } },
       { raw_task := { id := 2, project_id := 200 } },
       { raw_task := { id := 3, project_id := 100 } }] [] none) 100 = false := by
  constructor
  · rfl
  · rfl

/-- C7 witness: two listed projects 1 and 2, tasks alternating between them,
current project 2: singletons are unchanged, contiguity holds for project 1,
and project 2's tasks come first. -/
theorem C7_optimize_task_order_order_witness :
    optimize_task_order [{ raw_task := { id := 1, project_id := 1 } }]
      [{ project_id := 1 }, { project_id := 2 }] (some 2) =
      [{ raw_task := { id := 1, project_id := 1 } }] ∧
    contigBy (optimize_task_order
      [{ raw_task := { id := 1, project_id := 1 } },
       { raw_task := { id := 2, project_id := 2 } },
       { raw_task := { id := 3, project_id := 1 } }]
      [{ project_id := 1 }, { project_id := 2 }] (some 2)) 1 = true ∧
    (∃ rest, optimize_task_order
      [{ raw_task := { id := 1, project_id := 1 } },
       { raw_task := { id := 2, project_id := 2 } },
       { raw_task := { id := 3, project_id := 1 } }]
      [{ project_id := 1 }, { project_id := 2 }] (some 2) =
      ([{ raw_task := { id := 1, project_id := 1 } },
        { raw_task := { id := 2, project_id := 2 } },
        { raw_task := { id := 3, project_id := 1 } }].filter
          (fun t => t.raw_task.project_id == 2)) ++ rest) :=
  ⟨(C7_optimize_task_order_order
      [{ raw_task := { id := 1, project_id := 1 } }]
      [{ project_id := 1 }, { project_id := 2 }] (some 2)).1 (by decide),
   (C7_optimize_task_order_order
      [{ raw_task := { id := 1, project_id := 1 } },
       { raw_task := { id := 2, project_id := 2 } },
       { raw_task := { id := 3, project_id := 1 } }]
      [{ project_id := 1 }, { project_id := 2 }] (some 2)).2.2.1 (by decide) 1,
   (C7_optimize_task_order_order
      [{ raw_task := { id := 1, project_id := 1 } },
       { raw_task := { id := 2, project_id := 2 } },
       { raw_task := { id := 3, project_id := 1 } }]
      [{ project_id := 1 }, { project_id := 2 }] (some 2)).2.2.2.1 2 rfl
      (by decide) (by decide) (by decide)⟩

/-! ## Chain-walk termination (C8) -/

theorem taskLookup_mem (m : List RawTask) (i : Int) (b : RawTask)
    (h : taskLookup m i = some b) : b ∈ m := by
  rw [taskLookup] at h
  exact (List.mem_reverse).mp (List.mem_of_find?_eq_some h)

theorem taskLookup_id (m : List RawTask) (i : Int) (b : RawTask)
    (h : taskLookup m i = some b) : b.id = i := by
  rw [taskLookup] at h
  simpa using List.find?_some h

theorem foldl_visited_mono {α β : Type} (f : α × Finset Int → β → α × Finset Int)
    (hf : ∀ acc b, acc.2 ⊆ (f acc b).2) :
    ∀ (bs : List β) (acc : α × Finset Int), acc.2 ⊆ (bs.foldl f acc).2 := by
  intro bs
  induction bs with
  | nil =>
    intro acc
    exact Finset.Subset.refl _
  | cons b bs' ih =>
    intro acc
    exact Finset.Subset.trans (hf acc b) (ih (f acc b))

/-- The shared `visited` set only ever grows through `_find_chain_root`. -/
theorem find_chain_root_visited_mono : ∀ (fuel : Nat) (m : List RawTask)
    (t : RawTask) (visited : Finset Int),
    visited ⊆ (find_chain_root fuel m t visited).2 := by
  intro fuel
  induction fuel with
  | zero =>
    intro m t visited
    rw [find_chain_root]
  | succ n ih =>
    intro m t visited
    rw [find_chain_root]
    by_cases hv : t.id ∈ visited
    · rw [if_pos hv]
    · rw [if_neg hv]
      dsimp only
      by_cases hb : t.rel "blocked" = []
      · rw [if_pos hb]
        exact Finset.subset_insert _ _
      · rw [if_neg hb]
        have hfold := foldl_visited_mono
          (fun (acc : Option Int × Finset Int) b =>
            match acc with
            | (some _, _) => acc
            | (none, v) =>
              match taskLookup m b.id with
              | none => (none, v)
              | some blocker => find_chain_root n m blocker v)
          (by
            intro acc b
            rcases acc with ⟨o, v⟩
            rcases o with _ | root
            · dsimp only
              rcases hl : taskLookup m b.id with _ | blocker
              · exact Finset.Subset.refl _
              · exact ih m blocker v
            · exact Finset.Subset.refl _)
          (t.rel "blocked") (none, insert t.id visited)
        rcases hr : (t.rel "blocked").foldl
            (fun (acc : Option Int × Finset Int) b =>
              match acc with
              | (some _, _) => acc
              | (none, v) =>
                match taskLookup m b.id with
                | none => (none, v)
                | some blocker => find_chain_root n m blocker v)
            (none, insert t.id visited) with ⟨o, v⟩
        rw [hr] at hfold ⊢
        have hsub : visited ⊆ v :=
          Finset.Subset.trans (Finset.subset_insert _ _) hfold
        rcases o with _ | root
        · exact hsub
        · exact hsub

/-- The shared `visited` set only ever grows through `_build_chain_order`. -/
theorem build_chain_order_visited_mono : ∀ (fuel : Nat) (m : List RawTask)
    (start_id : Int) (visited : Finset Int),
    visited ⊆ (build_chain_order fuel m start_id visited).2 := by
  intro fuel
  induction fuel with
  | zero =>
    intro m start_id visited
    rw [build_chain_order]
  | succ n ih =>
    intro m start_id visited
    rw [build_chain_order]
    by_cases hv : start_id ∈ visited
    · rw [if_pos hv]
    · rw [if_neg hv]
      dsimp only
      rcases hl : taskLookup m start_id with _ | t
      · exact Finset.subset_insert _ _
      · have hfold := foldl_visited_mono
          (fun (acc : List Int × Finset Int) blocked_id =>
            let s := build_chain_order n m blocked_id acc.2
            (acc.1 ++ s.1, s.2))
          (by
            intro acc blocked_id
            dsimp only
            exact ih m blocked_id acc.2)
          t.blocking_ids ([], insert start_id visited)
        exact Finset.Subset.trans (Finset.subset_insert _ _) hfold

/-- The blocker loop of `_find_chain_root` gives the same result at fuels
`n+1` and `n` whenever every recursive call it can make does. -/
theorem chain_fold_stable (n : Nat) (m : List RawTask) (V0 : Finset Int)
    (hstep : ∀ (b : RawTask) (v : Finset Int), V0 ⊆ v → b ∈ m →
      find_chain_root (n + 1) m b v = find_chain_root n m b v) :
    ∀ (bs : List RelatedTaskInfo) (acc : Option Int × Finset Int), V0 ⊆ acc.2 →
    bs.foldl (fun (acc : Option Int × Finset Int) b =>
        match acc with
        | (some _, _) => acc
        | (none, v) =>
          match taskLookup m b.id with
          | none => (none, v)
          | some blocker => find_chain_root (n + 1) m blocker v) acc =
    bs.foldl (fun (acc : Option Int × Finset Int) b =>
        match acc with
        | (some _, _) => acc
        | (none, v) =>
          match taskLookup m b.id with
          | none => (none, v)
          | some blocker => find_chain_root n m blocker v) acc := by
  intro bs
  induction bs with
  | nil =>
    intro acc _
    rfl
  | cons b bs' ih2 =>
    intro acc hacc
    rw [List.foldl_cons, List.foldl_cons]
    rcases acc with ⟨o, v⟩
    rcases o with _ | root
    · dsimp only
      rcases hl : taskLookup m b.id with _ | blocker
      · exact ih2 (none, v) hacc
      · dsimp only
        rw [hstep blocker v hacc (taskLookup_mem m b.id blocker hl)]
        exact ih2 (find_chain_root n m blocker v)
          (Finset.Subset.trans hacc (find_chain_root_visited_mono n m blocker v))
    · exact ih2 (some root, v) hacc

/-- Successor-stability of `_find_chain_root`: once the fuel exceeds the
number of unvisited ids reachable in the task map, one more unit of fuel
cannot change the result. -/
theorem find_chain_root_succ_stable : ∀ (fuel : Nat) (m : List RawTask)
    (t : RawTask) (visited : Finset Int),
    ((idSet m ∪ {t.id}) \ visited).card < fuel →
    find_chain_root (fuel + 1) m t visited = find_chain_root fuel m t visited := by
  intro fuel
  induction fuel with
  | zero =>
    intro m t visited h
    exact absurd h (Nat.not_lt_zero _)
  | succ n ih =>
    intro m t visited hmu
    rw [find_chain_root, find_chain_root]
    by_cases hv : t.id ∈ visited
    · rw [if_pos hv, if_pos hv]
    · rw [if_neg hv, if_neg hv]
      dsimp only
      by_cases hb : t.rel "blocked" = []
      · rw [if_pos hb, if_pos hb]
      · rw [if_neg hb, if_neg hb]
        have hstep : ∀ (b : RawTask) (v : Finset Int),
            insert t.id visited ⊆ v → b ∈ m →
            find_chain_root (n + 1) m b v = find_chain_root n m b v := by
          intro b v hsub hbm
          apply ih
          have hbid : b.id ∈ idSet m := by
            rw [idSet]
            simp only [List.mem_toFinset, List.mem_map]
            exact ⟨b, hbm, rfl⟩
          have hcollapse : idSet m ∪ {b.id} = idSet m :=
            Finset.union_eq_left.mpr (by simpa using hbid)
          rw [hcollapse]
          have hsubset : idSet m \ v ⊆ (idSet m ∪ {t.id}) \ visited := by
            intro x hx
            rw [Finset.mem_sdiff] at hx
            rw [Finset.mem_sdiff]
            refine ⟨Finset.mem_union_left _ hx.1, fun hxvis => hx.2 ?_⟩
            exact hsub (Finset.mem_insert_of_mem hxvis)
          have htid : t.id ∈ (idSet m ∪ {t.id}) \ visited := by
            rw [Finset.mem_sdiff]
            exact ⟨Finset.mem_union_right _ (Finset.mem_singleton_self _), hv⟩
          have htid2 : t.id ∉ idSet m \ v := by
            rw [Finset.mem_sdiff]
            rintro ⟨_, hnv⟩
            exact hnv (hsub (Finset.mem_insert_self _ _))
          have hss : idSet m \ v ⊂ (idSet m ∪ {t.id}) \ visited :=
            (Finset.ssubset_iff_of_subset hsubset).mpr ⟨t.id, htid, htid2⟩
          have hlt := Finset.card_lt_card hss
          omega
        rw [chain_fold_stable n m (insert t.id visited) hstep (t.rel "blocked")
          (none, insert t.id visited) (Finset.Subset.refl _)]

/-- The blocking loop of `_build_chain_order` gives the same result at fuels
`n+1` and `n` whenever every recursive call it can make does. -/
theorem build_fold_stable (n : Nat) (m : List RawTask) (V0 : Finset Int)
    (hstep : ∀ (i : Int) (v : Finset Int), V0 ⊆ v →
      build_chain_order (n + 1) m i v = build_chain_order n m i v) :
    ∀ (bs : List Int) (acc : List Int × Finset Int), V0 ⊆ acc.2 →
    bs.foldl (fun (acc : List Int × Finset Int) blocked_id =>
        let s := build_chain_order (n + 1) m blocked_id acc.2
        (acc.1 ++ s.1, s.2)) acc =
    bs.foldl (fun (acc : List Int × Finset Int) blocked_id =>
        let s := build_chain_order n m blocked_id acc.2
        (acc.1 ++ s.1, s.2)) acc := by
  intro bs
  induction bs with
  | nil =>
    intro acc _
    rfl
  | cons i bs' ih2 =>
    intro acc hacc
    rw [List.foldl_cons, List.foldl_cons]
    dsimp only
    rw [hstep i acc.2 hacc]
    apply ih2
    exact Finset.Subset.trans hacc (build_chain_order_visited_mono n m i acc.2)

/-- Successor-stability of `_build_chain_order`. -/
theorem build_chain_order_succ_stable : ∀ (fuel : Nat) (m : List RawTask)
    (start_id : Int) (visited : Finset Int),
    ((insert start_id (idSet m)) \ visited).card < fuel →
    build_chain_order (fuel + 1) m start_id visited =
      build_chain_order fuel m start_id visited := by
  intro fuel
  induction fuel with
  | zero =>
    intro m start_id visited h
    exact absurd h (Nat.not_lt_zero _)
  | succ n ih =>
    intro m start_id visited hmu
    rw [build_chain_order, build_chain_order]
    by_cases hv : start_id ∈ visited
    · rw [if_pos hv, if_pos hv]
    · rw [if_neg hv, if_neg hv]
      dsimp only
      have hn1 : 1 ≤ n := by
        have hsidmem : start_id ∈ insert start_id (idSet m) \ visited := by
          rw [Finset.mem_sdiff]
          exact ⟨Finset.mem_insert_self _ _, hv⟩
        have hpos := Finset.card_pos.mpr ⟨start_id, hsidmem⟩
        omega
      rcases hl : taskLookup m start_id with _ | t
      · rfl
      · have hstep : ∀ (i : Int) (v : Finset Int), insert start_id visited ⊆ v →
            build_chain_order (n + 1) m i v = build_chain_order n m i v := by
          intro i v hsub
          rcases hli : taskLookup m i with _ | ti
          · rcases n with _ | n'
            · omega
            · rw [build_chain_order, build_chain_order]
              by_cases hiv : i ∈ v
              · rw [if_pos hiv, if_pos hiv]
              · rw [if_neg hiv, if_neg hiv]
                dsimp only
                rw [hli]
          · apply ih
            have hidm : i ∈ idSet m := by
              rw [idSet]
              simp only [List.mem_toFinset, List.mem_map]
              exact ⟨ti, taskLookup_mem m i ti hli, taskLookup_id m i ti hli⟩
            have hcollapse : insert i (idSet m) = idSet m :=
              Finset.insert_eq_self.mpr hidm
            rw [hcollapse]
            have hsubset : idSet m \ v ⊆ insert start_id (idSet m) \ visited := by
              intro x hx
              rw [Finset.mem_sdiff] at hx
              rw [Finset.mem_sdiff]
              refine ⟨Finset.mem_insert_of_mem hx.1, fun hxvis => hx.2 ?_⟩
              exact hsub (Finset.mem_insert_of_mem hxvis)
            have hsid : start_id ∈ insert start_id (idSet m) \ visited := by
              rw [Finset.mem_sdiff]
              exact ⟨Finset.mem_insert_self _ _, hv⟩
            have hsid2 : start_id ∉ idSet m \ v := by
              rw [Finset.mem_sdiff]
              rintro ⟨_, hnv⟩
              exact hnv (hsub (Finset.mem_insert_self _ _))
            have hss : idSet m \ v ⊂ insert start_id (idSet m) \ visited :=
              (Finset.ssubset_iff_of_subset hsubset).mpr ⟨start_id, hsid, hsid2⟩
            have hlt := Finset.card_lt_card hss
            omega
        exact congrArg (fun r : List Int × Finset Int => (start_id :: r.1, r.2))
          (build_fold_stable n m (insert start_id visited) hstep t.blocking_ids
            ([], insert start_id visited) (Finset.Subset.refl _))

/-- `_find_chain_root` stabilises: every fuel above the number of relevant
unvisited ids yields the value reached at that bound. -/
theorem find_chain_root_limit (m : List RawTask) (t : RawTask)
    (visited : Finset Int) :
    ∀ (fuel : Nat), ((idSet m ∪ {t.id}) \ visited).card < fuel →
    find_chain_root fuel m t visited =
      find_chain_root (((idSet m ∪ {t.id}) \ visited).card + 1) m t visited := by
  intro fuel
  induction fuel with
  | zero =>
    intro h
    exact absurd h (Nat.not_lt_zero _)
  | succ n ih =>
    intro h
    by_cases hn : ((idSet m ∪ {t.id}) \ visited).card < n
    · rw [find_chain_root_succ_stable n m t visited hn]
      exact ih hn
    · have he : ((idSet m ∪ {t.id}) \ visited).card = n := by omega
      rw [he]

/-- `_build_chain_order` stabilises likewise. -/
theorem build_chain_order_limit (m : List RawTask) (start_id : Int)
    (visited : Finset Int) :
    ∀ (fuel : Nat), ((insert start_id (idSet m)) \ visited).card < fuel →
    build_chain_order fuel m start_id visited =
      build_chain_order (((insert start_id (idSet m)) \ visited).card + 1)
        m start_id visited := by
  intro fuel
  induction fuel with
  | zero =>
    intro h
    exact absurd h (Nat.not_lt_zero _)
  | succ n ih =>
    intro h
    by_cases hn : ((insert start_id (idSet m)) \ visited).card < n
    · rw [build_chain_order_succ_stable n m start_id visited hn]
      exact ih hn
    · have he : ((insert start_id (idSet m)) \ visited).card = n := by omega
      rw [he]

/-- C8: the chain-analysis walks terminate on every finite task list, cycles
included.  The upward root walk and the downward chain walk are embedded with
explicit fuel; their results stabilise as soon as the fuel exceeds the number
of unvisited ids that can still be entered (the visited-set guard admits each
id at most once), so the guarded recursion depth is bounded by the finite task
map and the walks never loop.  On the two-task cycle (1 blocks 2 and 2 blocks
1) both tasks are still reported blocked, `get_blocking_info` yields a chain
rooted by the fallback at the cycle entry, and `calculate_chain_progress`
returns the same finished answer at fuel 3 and at the ample fuel 9. -/
theorem C8_chain_walks_terminate :
    (∀ (m : List RawTask) (t : RawTask) (visited : Finset Int) (fuel : Nat),
      ((idSet m ∪ {t.id}) \ visited).card < fuel →
      find_chain_root fuel m t visited =
        find_chain_root (((idSet m ∪ {t.id}) \ visited).card + 1) m t visited) ∧
    (∀ (m : List RawTask) (start_id : Int) (visited : Finset Int) (fuel : Nat),
      ((insert start_id (idSet m)) \ visited).card < fuel →
      build_chain_order fuel m start_id visited =
        build_chain_order (((insert start_id (idSet m)) \ visited).card + 1)
          m start_id visited) ∧
    ((get_blocking_info 3
        { id := 1, project_id := 0,
          related_tasks := [("blocked", [{ id := 2 }]), ("blocking", [{ id := 2 }])] }
        [{ id := 1, project_id := 0,
           related_tasks := [("blocked", [{ id := 2 }]), ("blocking", [{ id := 2 }])] },
         { id := 2, project_id := 0,
           related_tasks := [("blocked", [{ id := 1 }]), ("blocking", [{ id := 1 }])] }]).is_blocked
        = true ∧
     (get_blocking_info 3
        { id := 2, project_id := 0,
          related_tasks := [("blocked", [{ id := 1 }]), ("blocking", [{ id := 1 }])] }
        [{ id := 1, project_id := 0,
           related_tasks := [("blocked", [{ id := 2 }]), ("blocking", [{ id := 2 }])] },
         { id := 2, project_id := 0,
           related_tasks := [("blocked", [{ id := 1 }]), ("blocking", [{ id := 1 }])] }]).is_blocked
        = true ∧
     (get_blocking_info 3
        { id := 1, project_id := 0,
          related_tasks := [("blocked", [{ id := 2 }]), ("blocking", [{ id := 2 }])] }
        [{ id := 1, project_id := 0,
           related_tasks := [("blocked", [{ id := 2 }]), ("blocking", [{ id := 2 }])] },
         { id := 2, project_id := 0,
           related_tasks := [("blocked", [{ id := 1 }]), ("blocking", [{ id := 1 }])] }]).chain_context.map
        (fun c => (c.root_task_id, c.chain_tasks, c.total_tasks, c.completed_tasks))
        = some (2, [2, 1], 2, 0) ∧
     calculate_chain_progress 3
        [{ id := 1, project_id := 0,
           related_tasks := [("blocked", [{ id := 2 }]), ("blocking", [{ id := 2 }])] },
         { id := 2, project_id := 0,
           related_tasks := [("blocked", [{ id := 1 }]), ("blocking", [{ id := 1 }])] }]
        = [(1, 0, 2), (2, 0, 2)] ∧
     calculate_chain_progress 9
        [{ id := 1, project_id := 0,
           related_tasks := [("blocked", [{ id := 2 }]), ("blocking", [{ id := 2 }])] },
         { id := 2, project_id := 0,
           related_tasks := [("blocked", [{ id := 1 }]), ("blocking", [{ id := 1 }])] }]
        = [(1, 0, 2), (2, 0, 2)]) :=
  ⟨fun m t visited fuel h => find_chain_root_limit m t visited fuel h,
   fun m start_id visited fuel h => build_chain_order_limit m start_id visited fuel h,
   by decide, by decide, by decide, by decide, by decide⟩

/-- C8 witness: the stabilisation theorem applied to the two-task cycle with
fuel 4 (the relevant id count is 2, so the bound 3 is already ample). -/
theorem C8_chain_walks_terminate_witness :
    ((idSet
        [{ id := 1, project_id := 0,
           related_tasks := [("blocked", [{ id := 2 }]), ("blocking", [{ id := 2 }])] },
         { id := 2, project_id := 0,
           related_tasks := [("blocked", [{ id := 1 }]), ("blocking", [{ id := 1 }])] }]
      ∪ {(1 : Int)}) \ ∅).card < 4 ∧
    find_chain_root 4
      [{ id := 1, project_id := 0,
         related_tasks := [("blocked", [{ id := 2 }]), ("blocking", [{ id := 2 }])] },
       { id := 2, project_id := 0,
         related_tasks := [("blocked", [{ id := 1 }]), ("blocking", [{ id := 1 }])] }]
      { id := 1, project_id := 0,
        related_tasks := [("blocked", [{ id := 2 }]), ("blocking", [{ id := 2 }])] } ∅ =
    find_chain_root
      (((idSet
          [{ id := 1, project_id := 0,
             related_tasks := [("blocked", [{ id := 2 }]), ("blocking", [{ id := 2 }])] },
           { id := 2, project_id := 0,
             related_tasks := [("blocked", [{ id := 1 }]), ("blocking", [{ id := 1 }])] }]
        ∪ {(1 : Int)}) \ ∅).card + 1)
      [{ id := 1, project_id := 0,
         related_tasks := [("blocked", [{ id := 2 }]), ("blocking", [{ id := 2 }])] },
       { id := 2, project_id := 0,
         related_tasks := [("blocked", [{ id := 1 }]), ("blocking", [{ id := 1 }])] }]
      { id := 1, project_id := 0,
        related_tasks := [("blocked", [{ id := 2 }]), ("blocking", [{ id := 2 }])] } ∅ ∧
    build_chain_order 4
      [{ id := 1, project_id := 0,
         related_tasks := [("blocked", [{ id := 2 }]), ("blocking", [{ id := 2 }])] },
       { id := 2, project_id := 0,
         related_tasks := [("blocked", [{ id := 1 }]), ("blocking", [{ id := 1 }])] }]
      2 ∅ =
    build_chain_order
      (((insert (2 : Int) (idSet
          [{ id := 1, project_id := 0,
             related_tasks := [("blocked", [{ id := 2 }]), ("blocking", [{ id := 2 }])] },
           { id := 2, project_id := 0,
             related_tasks := [("blocked", [{ id := 1 }]), ("blocking", [{ id := 1 }])] }]))
        \ ∅).card + 1)
      [{ id := 1, project_id := 0,
         related_tasks := [("blocked", [{ id := 2 }]), ("blocking", [{ id := 2 }])] },
       { id := 2, project_id := 0,
         related_tasks := [("blocked", [{ id := 1 }]), ("blocking", [{ id := 1 }])] }]
      2 ∅ :=
  ⟨by decide,
   C8_chain_walks_terminate.1
     [{ id := 1, project_id := 0,
        related_tasks := [("blocked", [{ id := 2 }]), ("blocking", [{ id := 2 }])] },
      { id := 2, project_id := 0,
        related_tasks := [("blocked", [{ id := 1 }]), ("blocking", [{ id := 1 }])] }]
     { id := 1, project_id := 0,
       related_tasks := [("blocked", [{ id := 2 }]), ("blocking", [{ id := 2 }])] }
     ∅ 4 (by decide),
   C8_chain_walks_terminate.2.1
     [{ id := 1, project_id := 0,
        related_tasks := [("blocked", [{ id := 2 }]), ("blocking", [{ id := 2 }])] },
      { id := 2, project_id := 0,
        related_tasks := [("blocked", [{ id := 1 }]), ("blocking", [{ id := 1 }])] }]
     2 ∅ 4 (by decide)⟩

/-! ## Metadata block round-trip (C9) -/

theorem findSub_eq_some_of (p : List Char) :
    ∀ (l : List Char) (n : Nat), p.isPrefixOf (l.drop n) = true →
    (∀ j < n, ¬ p.isPrefixOf (l.drop j) = true) →
    findSub p l = some n := by
  intro l
  induction l with
  | nil =>
    intro n h1 h2
    cases n with
    | zero =>
      rw [findSub,
        if_pos (show p.isPrefixOf ([] : List Char) = true from by simpa using h1)]
    | succ n' =>
      exact absurd (show p.isPrefixOf (([] : List Char).drop 0) = true from
        by simpa using h1) (h2 0 (Nat.succ_pos _))
  | cons c rest ih =>
    intro n h1 h2
    cases n with
    | zero => rw [findSub, if_pos (by simpa using h1)]
    | succ n' =>
      have hnot : ¬ p.isPrefixOf (c :: rest) = true := by
        have h0 := h2 0 (Nat.succ_pos _)
        simpa using h0
      rw [findSub, if_neg hnot,
        ih n' (by simpa using h1) (fun j hj => by
          have hjj := h2 (j + 1) (by omega)
          simpa using hjj)]
      rfl

theorem dropWhile_head_false {α : Type} (p : α → Bool) (l : List α) (c : α)
    (r : List α) (h : l.dropWhile p = c :: r) : p c = false := by
  induction l with
  | nil => simp [List.dropWhile] at h
  | cons x xs ih =>
    rw [List.dropWhile_cons] at h
    by_cases hx : p x = true
    · rw [if_pos hx] at h
      exact ih h
    · rw [if_neg hx] at h
      have hcx : x = c := (List.cons.inj h).1
      rw [← hcx]
      simpa using hx

theorem removeBlocks_of_none (l : List Char) (h : matchBlock l = none) :
    removeBlocks l = l := by
  rw [removeBlocks]
  split
  · rfl
  next s e g heq =>
    rw [h] at heq
    simp at heq

theorem removeBlocks_of_some (l : List Char) (s e : Nat) (g : List Char)
    (h : matchBlock l = some (s, e, g)) :
    removeBlocks l = l.take s ++ removeBlocks (l.drop e) := by
  rw [removeBlocks]
  split
  next heq =>
    rw [h] at heq
    simp at heq
  next s' e' g' heq =>
    rw [h] at heq
    have hinj : s = s' ∧ e = e' ∧ g = g' := by simpa using heq
    obtain ⟨hs, he, hg⟩ := hinj
    rw [← hs, ← he]

theorem pyStrip_append_nl2 (A : List Char) (h : pyStrip A = A) :
    pyStrip (A ++ "\n\n".data) = A := by
  cases A with
  | nil => decide
  | cons c A' =>
    have hsuf1 : (c :: A').dropWhile isPySpace <:+ c :: A' :=
      List.dropWhile_suffix _
    have hlen1 : (pyStrip (c :: A')).length ≤
        ((c :: A').dropWhile isPySpace).length := by
      rw [pyStrip]
      simp only [List.length_reverse]
      calc (((c :: A').dropWhile isPySpace).reverse.dropWhile isPySpace).length
            ≤ ((c :: A').dropWhile isPySpace).reverse.length :=
              (List.dropWhile_suffix _).sublist.length_le
        _ = ((c :: A').dropWhile isPySpace).length := List.length_reverse _
    have hlen2 : ((c :: A').dropWhile isPySpace).length = (c :: A').length := by
      have hle := (List.dropWhile_suffix (l := c :: A') isPySpace).sublist.length_le
      have hpl : (pyStrip (c :: A')).length = (c :: A').length := by rw [h]
      omega
    have hd : (c :: A').dropWhile isPySpace = c :: A' :=
      hsuf1.sublist.eq_of_length hlen2
    have ht : (c :: A').reverse.dropWhile isPySpace = (c :: A').reverse := by
      have h5 : pyStrip (c :: A') = ((c :: A').reverse.dropWhile isPySpace).reverse := by
        rw [pyStrip, hd]
      rw [h] at h5
      have h6 := congrArg List.reverse h5
      rw [List.reverse_reverse] at h6
      exact h6.symm
    have hc : isPySpace c = false := dropWhile_head_false _ _ _ _ hd
    rw [pyStrip]
    have h2 : ((c :: A') ++ "\n\n".data).dropWhile isPySpace =
        (c :: A') ++ "\n\n".data := by
      rw [List.cons_append, List.dropWhile_cons, if_neg (by simp [hc])]
    rw [h2]
    have h3 : ((c :: A') ++ "\n\n".data).reverse =
        '\n' :: '\n' :: (c :: A').reverse := by
      rw [List.reverse_append]
      rfl
    rw [h3, List.dropWhile_cons, if_pos (by decide), List.dropWhile_cons,
      if_pos (by decide), ht, List.reverse_reverse]

/-- When the clean text holds no start marker, the first start-marker
occurrence of the re-embedded description is exactly at the separator
boundary (the marker contains no newline, so no occurrence can straddle
the inserted blank line). -/
theorem findSub_startMarker_boundary (cln rest : List Char)
    (hni : ¬ startMarker <:+: cln)
    (hpre : startMarker.isPrefixOf rest = true) :
    findSub startMarker (cln ++ "\n\n".data ++ rest) = some (cln.length + 2) := by
  apply findSub_eq_some_of
  · have hlen : (cln ++ "\n\n".data).length = cln.length + 2 := by simp
    have hd : (cln ++ "\n\n".data ++ rest).drop (cln.length + 2) = rest := by
      rw [← hlen, List.drop_left]
    rw [hd]
    exact hpre
  · intro j hj hpref
    rw [List.isPrefixOf_iff_prefix] at hpref
    have hsm : 0 < startMarker.length := by decide
    by_cases hjle : j ≤ cln.length
    · have hsplit : (cln ++ "\n\n".data ++ rest).drop j =
          cln.drop j ++ ("\n\n".data ++ rest) := by
        rw [List.append_assoc, List.drop_append_of_le_length hjle]
      rw [hsplit] at hpref
      by_cases hcase : j + startMarker.length ≤ cln.length
      · apply hni
        have hlen2 : startMarker.length ≤ (cln.drop j).length := by
          rw [List.length_drop]
          omega
        have htake := List.prefix_iff_eq_take.mp hpref
        rw [List.take_append_of_le_length hlen2] at htake
        have hpc : startMarker <+: cln.drop j :=
          List.prefix_iff_eq_take.mpr htake
        obtain ⟨t, ht⟩ := hpc
        refine ⟨cln.take j, t, ?_⟩
        rw [List.append_assoc, ht, List.take_append_drop]
      · obtain ⟨t, ht⟩ := hpref
        have hdlen : (cln.drop j).length ≤ startMarker.length := by
          rw [List.length_drop]
          omega
        have hdrop := congrArg (List.drop (cln.drop j).length) ht
        rw [List.drop_append_of_le_length hdlen, List.drop_left] at hdrop
        have hne : startMarker.drop (cln.drop j).length ≠ [] := by
          intro h0
          have hl0 := congrArg List.length h0
          rw [List.length_drop, List.length_drop] at hl0
          simp only [List.length_nil] at hl0
          omega
        rcases hdd : startMarker.drop (cln.drop j).length with _ | ⟨ch, tl⟩
        · exact hne hdd
        · rw [hdd, List.cons_append] at hdrop
          have h9 : ch :: (tl ++ t) = '\n' :: '\n' :: rest := hdrop
          have hch : ch = '\n' := (List.cons.inj h9).1
          have hmem : ch ∈ startMarker :=
            List.mem_of_mem_drop (hdd ▸ List.mem_cons_self ch tl)
          rw [hch] at hmem
          exact absurd hmem (by decide)
    · have hj1 : j = cln.length + 1 := by omega
      have hsplit2 : (cln ++ "\n\n".data ++ rest).drop j = '\n' :: rest := by
        rw [hj1, List.append_assoc, List.drop_append]
        rfl
      rw [hsplit2] at hpref
      obtain ⟨t, ht⟩ := hpref
      rcases hsm2 : startMarker with _ | ⟨c, s'⟩
      · exact absurd hsm2 (by decide)
      · rw [hsm2, List.cons_append] at ht
        have hc2 : c = '\n' := (List.cons.inj ht).1
        have hmem : c ∈ startMarker := by
          rw [hsm2]
          exact List.mem_cons_self _ _
        rw [hc2] at hmem
        exact absurd hmem (by decide)

/-- C9 (amended): re-embedding extracted metadata and extracting again
returns exactly the same clean text (and the same metadata), provided the
clean text is stripped (which `.strip()` guarantees for extraction outputs),
the clean text contains no start-marker occurrence, the serialized metadata
contains no early end-marker occurrence, and the decode step inverts the
serializer.  Without the marker hypotheses the round trip fails — see the
dangling-marker counterexample. -/
theorem C9_metadata_roundtrip (parseMeta : List Char → Option HyperFocusMetadata)
    (serializeMeta : HyperFocusMetadata → List Char) (clean : List Char)
    (md : HyperFocusMetadata)
    (hstrip : pyStrip clean = clean)
    (hni : ¬ startMarker <:+: clean)
    (hend : findSub endMarker (serializeMeta md ++ endMarker) =
      some (serializeMeta md).length)
    (hparse : parseMeta (serializeMeta md) = some md) :
    extract_metadata parseMeta (embed_metadata serializeMeta clean md) =
      (clean, some md) := by
  have hD : embed_metadata serializeMeta clean md =
      clean ++ "\n\n".data ++ (startMarker ++ (serializeMeta md ++ endMarker)) := by
    rw [embed_metadata]
    simp [List.append_assoc]
  have hfs : findSub startMarker (embed_metadata serializeMeta clean md) =
      some (clean.length + 2) := by
    rw [hD]
    exact findSub_startMarker_boundary clean _ hni
      (List.isPrefixOf_iff_prefix.mpr (List.prefix_append _ _))
  have hdropA : (embed_metadata serializeMeta clean md).drop
      (clean.length + 2 + startMarker.length) = serializeMeta md ++ endMarker := by
    rw [hD]
    have hassoc : clean ++ "\n\n".data ++ (startMarker ++ (serializeMeta md ++ endMarker)) =
        (clean ++ "\n\n".data ++ startMarker) ++ (serializeMeta md ++ endMarker) := by
      simp [List.append_assoc]
    have hlen : (clean ++ "\n\n".data ++ startMarker).length =
        clean.length + 2 + startMarker.length := by
      simp
      omega
    rw [hassoc, ← hlen, List.drop_left]
  have hmb : matchBlock (embed_metadata serializeMeta clean md) =
      some (clean.length + 2,
        clean.length + 2 + startMarker.length + (serializeMeta md).length +
          endMarker.length, serializeMeta md) := by
    rw [matchBlock, hfs]
    dsimp only
    rw [hdropA, hend]
    dsimp only
    rw [List.take_left]
  have he : clean.length + 2 + startMarker.length + (serializeMeta md).length +
      endMarker.length = (embed_metadata serializeMeta clean md).length := by
    rw [hD]
    simp [List.length_append]
    omega
  have hrb : removeBlocks (embed_metadata serializeMeta clean md) =
      clean ++ "\n\n".data := by
    rw [removeBlocks_of_some _ _ _ _ hmb]
    have htk : (embed_metadata serializeMeta clean md).take (clean.length + 2) =
        clean ++ "\n\n".data := by
      rw [hD]
      have hlen2 : (clean ++ "\n\n".data).length = clean.length + 2 := by simp
      rw [← hlen2, List.take_left]
    have hdr : (embed_metadata serializeMeta clean md).drop
        (clean.length + 2 + startMarker.length + (serializeMeta md).length +
          endMarker.length) = [] := by
      rw [he, List.drop_length]
    rw [htk, hdr, removeBlocks_of_none [] (by decide)]
    simp
  rw [extract_metadata, hmb]
  dsimp only
  rw [hparse]
  dsimp only
  rw [hrb, pyStrip_append_nl2 clean hstrip]

/-- C9 counterexample: a description whose clean text is itself a dangling
start marker.  The first extraction succeeds (clean text = the dangling
marker, metadata = the defaults record), but after re-embedding, the regex
matches from the dangling marker through the appended block, the group no
longer parses, and the second extraction returns the whole re-embedded
description with no metadata — not the same clean text. -/
theorem C9_counterexample_dangling_marker :
    extract_metadata parseMetaLit
      (startMarker ++ "\x7b\x7d".data ++ endMarker ++ startMarker) =
      (startMarker, some {}) ∧
    extract_metadata parseMetaLit
      (embed_metadata serializeMetaLit startMarker {}) =
      (embed_metadata serializeMetaLit startMarker {}, none) ∧
    embed_metadata serializeMetaLit startMarker {} ≠ startMarker := by
  refine ⟨?_, by decide, by decide⟩
  have hm1 : matchBlock
      (startMarker ++ "\x7b\x7d".data ++ endMarker ++ startMarker) =
      some (0, 44, "\x7b\x7d".data) := by decide
  rw [extract_metadata, hm1]
  dsimp only
  rw [show parseMetaLit "\x7b\x7d".data = some {} from by decide]
  dsimp only
  have hrb : removeBlocks
      (startMarker ++ "\x7b\x7d".data ++ endMarker ++ startMarker) =
      startMarker := by
    rw [removeBlocks_of_some _ _ _ _ hm1]
    rw [show (startMarker ++ "\x7b\x7d".data ++ endMarker ++ startMarker).drop 44 =
      startMarker from by decide]
    rw [removeBlocks_of_none startMarker (by decide)]
    rfl
  rw [hrb, show pyStrip startMarker = startMarker from by decide]

/-- C9 witness: the amended round trip at a plain clean text and the concrete
serializer/decoder pair. -/
theorem C9_metadata_roundtrip_witness :
    pyStrip "Do the thing".data = "Do the thing".data ∧
    (¬ startMarker <:+: "Do the thing".data) ∧
    findSub endMarker (serializeMetaLit {} ++ endMarker) =
      some (serializeMetaLit {}).length ∧
    parseMetaLit (serializeMetaLit {}) = some {} ∧
    extract_metadata parseMetaLit
      (embed_metadata serializeMetaLit "Do the thing".data {}) =
      ("Do the thing".data, some {}) :=
  ⟨by decide, by decide, by decide, by decide,
   C9_metadata_roundtrip parseMetaLit serializeMetaLit "Do the thing".data {}
     (by decide) (by decide) (by decide) (by decide)⟩

end Vmcp
